import Mathlib

/-!
Verification development for the theater seat monitoring bot
(single source file `main.py`).  The definitions below are shallow
embeddings of the Python functions of the `TheaterBot` class:

* `parse_seats_from_html`  — the regex-based seat scraper;
* `find_adjacent_seats`    — the ceiling filter, per-row sort and
  adjacency scanner producing seat groups;
* `_compare_groups`        — the group differ;
* `load_db` / `save_db`    — the TOML subscription store;
* `tick` / `monitor_show`  — one iteration, and the loop, of the
  per-subscription monitoring task.

Python strings are embedded as Lean `String`; the fragments of Python's
`int()` and `str.isdigit()` relevant here (ASCII inputs: optional
whitespace, an optional sign, decimal digits) are modelled by `pyInt`
and `pyIsDigit`.  Python exceptions are modelled with `Except String`,
the error string naming the exception class.
-/

namespace TheaterBot

/-- ASCII whitespace as stripped by Python's `int()` before parsing. -/
def pySpace (c : Char) : Bool :=
  c == ' ' || c == '\t' || c == '\n' || c == '\r'

/-- Numeric value of a list of decimal digit characters. -/
def digitsVal (l : List Char) : Nat :=
  l.foldl (fun a c => a * 10 + (c.toNat - '0'.toNat)) 0

/-- Value of an all-digit run after an optional leading sign. -/
def digitsCore (ds : List Char) (neg : Bool) : Option Int :=
  if !ds.isEmpty && ds.all Char.isDigit then
    some (if neg then -(digitsVal ds : Int) else (digitsVal ds : Int))
  else none

/-- Model of Python `int(s)` on ASCII input: strip whitespace, allow one
optional sign, then one or more decimal digits; `none` models the
`ValueError` raised on any other input. -/
def pyInt (s : String) : Option Int :=
  match ((s.data.dropWhile pySpace).reverse.dropWhile pySpace).reverse with
  | [] => none
  | c :: ds =>
    if c = '-' then digitsCore ds true
    else if c = '+' then digitsCore ds false
    else digitsCore (c :: ds) false

/-- Model of Python `s.isdigit()` on ASCII input: nonempty and all
decimal digits. -/
def pyIsDigit (s : String) : Bool :=
  !s.data.isEmpty && s.data.all Char.isDigit

/-- A seat record, as in the `Seat` dataclass of `main.py`: a row label,
a chair label and a status string. -/
structure Seat where
  row : String
  chair : String
  status : String
deriving DecidableEq, Repr

/-- A seat group, as in the dictionaries produced by
`find_adjacent_seats`: `{'row': …, 'start_chair': …, 'end_chair': …,
'count': …}`. -/
structure Group where
  row : String
  start_chair : String
  end_chair : String
  count : Nat
deriving DecidableEq, Repr

/-! ### The HTML seat parser

`parse_seats_from_html` applies
`re.findall(r'<a.*?class="(.*?)".*?data-chair="(.*?)".*?data-row="(.*?)".*?</a>', html, re.MULTILINE | re.DOTALL)`.
All quantifiers in that pattern are lazy and everything between them is
a literal, so a match starting at a given position exists exactly when
the literals occur in order after it, and the lazy engine commits to
the earliest occurrence of each literal in turn (choosing a later
occurrence only shrinks the remaining text, so it can never rescue a
failed earliest choice).  `findall` takes the leftmost match and then
continues scanning after its end.  The matcher below implements exactly
that: find the next `<a`, then in sequence the literals
`class="`, `"`, `data-chair="`, `"`, `data-row="`, `"`, `</a>`,
capturing between the quotes. -/

/-- Suffix of `l` following the first occurrence of `pat`, or `none`
when `pat` does not occur in `l`. -/
def splitAfter (pat : List Char) : List Char → Option (List Char)
  | [] => if pat.isPrefixOf ([] : List Char) then some [] else none
  | c :: t =>
    if pat.isPrefixOf (c :: t) then some ((c :: t).drop pat.length)
    else splitAfter pat t

/-- Split at the first double quote: the text before it and the text
after it (the lazy capture `(.*?)"`). -/
def captureTo : List Char → Option (List Char × List Char)
  | [] => none
  | c :: t =>
    if c = '"' then some ([], t)
    else (captureTo t).map (fun p => (c :: p.1, p.2))

/-- Match the tail of the seat pattern after a `<a`: returns the three
captures (class, chair, row) and the text after the closing `</a>`. -/
def matchSeat (l : List Char) : Option (String × String × String × List Char) := do
  let l1 ← splitAfter "class=\"".data l
  let p1 ← captureTo l1
  let l3 ← splitAfter "data-chair=\"".data p1.2
  let p2 ← captureTo l3
  let l5 ← splitAfter "data-row=\"".data p2.2
  let p3 ← captureTo l5
  let l7 ← splitAfter "</a>".data p3.2
  pure (⟨p1.1⟩, ⟨p2.1⟩, ⟨p3.1⟩, l7)

/-- All matches of the seat pattern, in document order, with fuel
bounding the number of scanning steps. -/
def findallAux : Nat → List Char → List (String × String × String)
  | 0, _ => []
  | fuel + 1, l =>
    match splitAfter ['<', 'a'] l with
    | none => []
    | some rest =>
      match matchSeat rest with
      | none => []
      | some (cls, chair, row, rest') => (cls, chair, row) :: findallAux fuel rest'

/-- All matches of the seat pattern in the document, in document
order. -/
def findallSeats (l : List Char) : List (String × String × String) :=
  findallAux l.length l

/-- Python `'taken' in class_attr`: substring containment. -/
def containsTaken (s : String) : Bool :=
  (splitAfter "taken".data s.data).isSome

/-- Embedding of `TheaterBot.parse_seats_from_html`: every regex match
becomes a `Seat` whose status is `taken` when the class attribute
contains the substring `taken`, else `available`. -/
def parse_seats_from_html (html : String) : List Seat :=
  (findallSeats html.data).map (fun m =>
    { row := m.2.2, chair := m.2.1,
      status := if containsTaken m.1 then "taken" else "available" })

/-! ### The adjacency grouper `find_adjacent_seats` -/

/-- Integer value of a chair label, with a junk default for labels that
do not parse (only used under hypotheses that they do). -/
def chairValI (s : Seat) : Int :=
  (pyInt s.chair).getD 0

/-- The `max_row` filter of `find_adjacent_seats`
(`seats = [s for s in seats if int(s.row) <= max_row]` inside
`try/except ValueError`).  The whole comprehension is evaluated before
the assignment, so a single non-numeric row label aborts it with
`ValueError`; the handler then evaluates
`main_logger.warning(f"Row value is not numeric: {s.row}")`, where `s`
is not defined (the comprehension variable does not leak in Python 3),
so a `NameError` escapes `find_adjacent_seats`. -/
def ceilingFilter (seats : List Seat) (max_row : Option Int) : Except String (List Seat) :=
  match max_row with
  | none => .ok seats
  | some m =>
    if seats.all (fun s => (pyInt s.row).isSome) then
      .ok (seats.filter (fun s => (pyInt s.row).getD 0 ≤ m))
    else .error "NameError"

/-- One step of the row-grouping loop: append the seat to the entry for
its row, or create a new entry at the end (Python dicts preserve
insertion order). -/
def addToRow (acc : List (String × List Seat)) (s : Seat) : List (String × List Seat) :=
  match acc with
  | [] => [(s.row, [s])]
  | (r, ss) :: rest =>
    if r = s.row then (r, ss ++ [s]) :: rest else (r, ss) :: addToRow rest s

/-- The `seats_by_row` dictionary, as an association list in key
insertion order. -/
def groupByRow (seats : List Seat) : List (String × List Seat) :=
  seats.foldl addToRow []

/-- The per-row sort
`sort(key=lambda s: int(s.chair) if s.chair.isdigit() else s.chair)`.
With only digit chair labels the keys are ints; with only non-digit
labels the keys are strings; a row containing both kinds makes
CPython's sort compare an `int` with a `str` and raise `TypeError`.
Python's sort is stable; `List.insertionSort` with the non-strict key
order is the stable sort by that key. -/
def sortChairs (l : List Seat) : Except String (List Seat) :=
  if l.all (fun s => pyIsDigit s.chair) then
    .ok (l.insertionSort (fun a b => chairValI a ≤ chairValI b))
  else if l.all (fun s => !pyIsDigit s.chair) then
    .ok (l.insertionSort (fun a b => a.chair ≤ b.chair))
  else .error "TypeError"

/-- The loop `for row in seats_by_row: seats_by_row[row].sort(...)`,
propagating the first sort failure. -/
def sortRows : List (String × List Seat) → Except String (List (String × List Seat))
  | [] => .ok []
  | (r, ss) :: rest => do
    let ss1 ← sortChairs ss
    let rest1 ← sortRows rest
    .ok ((r, ss1) :: rest1)

/-- The consecutiveness test of the scanner:
`int(current.chair) == int(previous.chair) + 1`, with any `ValueError`
from `int()` making the test false. -/
def isConsecutive (p c : Seat) : Bool :=
  match pyInt p.chair, pyInt c.chair with
  | some pv, some cv => cv == pv + 1
  | _, _ => false

/-- The group dictionary built from a closed sequence:
`{'row': row, 'start_chair': seq[0].chair, 'end_chair': seq[-1].chair,
'count': len(seq)}`. -/
def seqGroup (row : String) (cur : List Seat) : Group :=
  { row := row
    start_chair := ((cur.head?).map Seat.chair).getD ""
    end_chair := ((cur.getLast?).map Seat.chair).getD ""
    count := cur.length }

/-- Emit the closed sequence when it reached `min_seats`. -/
def flushSeq (min_seats : Nat) (row : String) (cur : List Seat) : List Group :=
  if min_seats ≤ cur.length then [seqGroup row cur] else []

/-- The left-to-right scan of a sorted row: `cur` is the running
`current_sequence`; a seat extends it exactly when `isConsecutive`
holds of the sequence's last seat and the new seat, otherwise the
sequence is flushed and restarted at the new seat; the final sequence
is flushed when the row ends. -/
def scanRow (min_seats : Nat) (row : String) (cur : List Seat) : List Seat → List Group
  | [] => flushSeq min_seats row cur
  | s :: rest =>
    match cur.getLast? with
    | some prev =>
      if isConsecutive prev s then scanRow min_seats row (cur ++ [s]) rest
      else flushSeq min_seats row cur ++ scanRow min_seats row [s] rest
    | none => scanRow min_seats row [s] rest

/-- Processing of one row: skip it when it has fewer seats than
`min_seats`, otherwise scan it starting from its first seat. -/
def processRow (min_seats : Nat) (row : String) (sorted : List Seat) : List Group :=
  if sorted.length < min_seats then []
  else
    match sorted with
    | [] => []
    | s :: rest => scanRow min_seats row [s] rest

/-- Embedding of `TheaterBot.find_adjacent_seats`: ceiling filter,
group by row, sort each row, then scan each row in dictionary order
collecting the groups. -/
def find_adjacent_seats (seats : List Seat) (min_seats : Nat) (max_row : Option Int) :
    Except String (List Group) := do
  let fseats ← ceilingFilter seats max_row
  let srows ← sortRows (groupByRow fseats)
  .ok (srows.foldl (fun acc rs => acc ++ processRow min_seats rs.1 rs.2) [])

/-! ### The group differ `_compare_groups` -/

/-- Identity triple of a group: `(row, start_chair, end_chair)`. -/
def tripleOf (g : Group) : String × String × String :=
  (g.row, g.start_chair, g.end_chair)

/-- Embedding of `TheaterBot._compare_groups`: the set of old triples is
built, then the new groups whose triple is not in it are kept in
order. -/
def compareGroups (old_groups new_groups : List Group) : List Group :=
  let old_group_keys := old_groups.map tripleOf
  new_groups.filter (fun g => !(old_group_keys.contains (tripleOf g)))

/-! ### The subscription store `save_db` / `load_db`

The backing file is TOML written with the `toml` package (uiri/toml).
Its encoder dumps ints, strings, arrays and tables faithfully, and a
value of an unsupported type — in particular Python's `None` — falls
through to the string dumper, so `'max_row': None` is written as the
TOML string `"None"`.  Decoding what the encoder wrote therefore
returns the same ints, strings, arrays and tables, with `None` turned
into the string `"None"`.  A `MonitoredShow.max_row` at runtime is
`None`, an `int`, or (after such a reload) a `str`, modelled as
`Option (Int ⊕ String)`. -/

/-- TOML values as written and re-read by `save_db`/`load_db`. -/
inductive TomlV where
  | int (n : Int)
  | str (s : String)
  | arr (l : List TomlV)
  | table (kvs : List (String × TomlV))

/-- A `MonitoredShow` record.  `max_row` is dynamically typed in Python
(annotated `Optional[int]`, but a reload can make it a string). -/
structure MonitoredShow where
  chat_id : Int
  theater_id : String
  min_seats : Int
  created_at : String
  last_available_groups : List Group
  max_row : Option (Int ⊕ String)
deriving DecidableEq, Repr

/-- TOML encoding of one group dictionary. -/
def groupToToml (g : Group) : TomlV :=
  .table [("row", .str g.row), ("start_chair", .str g.start_chair),
          ("end_chair", .str g.end_chair), ("count", .int (g.count : Int))]

/-- TOML value written for the `max_row` field: `None` has no TOML
representation and is dumped through the encoder's string fallback as
the literal string `"None"`. -/
def maxRowToToml : Option (Int ⊕ String) → TomlV
  | some (.inl n) => .int n
  | some (.inr s) => .str s
  | none => .str "None"

/-- TOML encoding of one `MonitoredShow` record, field for field as in
`save_db`. -/
def showToToml (show_rec : MonitoredShow) : TomlV :=
  .table [("chat_id", .int show_rec.chat_id),
          ("theater_id", .str show_rec.theater_id),
          ("min_seats", .int show_rec.min_seats),
          ("created_at", .str show_rec.created_at),
          ("last_available_groups", .arr (show_rec.last_available_groups.map groupToToml)),
          ("max_row", maxRowToToml show_rec.max_row)]

/-- Embedding of `TheaterBot.save_db`: the document
`{'monitored_shows': {key: record}}` written to the TOML file. -/
def save_db (shows : List (String × MonitoredShow)) : TomlV :=
  .table [("monitored_shows", .table (shows.map (fun kv => (kv.1, showToToml kv.2))))]

/-- Key lookup in a TOML table (`value['k']` / `value.get('k')`). -/
def tomlGet (k : String) : TomlV → Option TomlV
  | .table kvs => kvs.lookup k
  | _ => none

/-- Decoding of one group dictionary from TOML. -/
def groupOfToml (v : TomlV) : Option Group :=
  match tomlGet "row" v, tomlGet "start_chair" v, tomlGet "end_chair" v, tomlGet "count" v with
  | some (.str r), some (.str s), some (.str e), some (.int n) =>
    some { row := r, start_chair := s, end_chair := e, count := n.toNat }
  | _, _, _, _ => none

/-- Decoding of the `max_row` field as loaded by `load_db`:
`value.get('max_row')` — absent gives `None`, an int stays an int, a
string stays a string. -/
def maxRowOfToml : Option TomlV → Option (Option (Int ⊕ String))
  | Option.none => some Option.none
  | some (.int n) => some (some (.inl n))
  | some (.str s) => some (some (.inr s))
  | _ => Option.none

/-- Decoding of one `MonitoredShow` record as in `load_db`; `none`
models a record whose required keys are missing (a `KeyError`, caught
by the generic handler) or whose values fall outside the runtime types
this program ever stores. -/
def showOfToml (v : TomlV) : Option MonitoredShow := do
  match tomlGet "chat_id" v, tomlGet "theater_id" v, tomlGet "min_seats" v,
        tomlGet "created_at" v with
  | some (.int cid), some (.str tid), some (.int ms), some (.str ca) =>
    let groups ←
      match tomlGet "last_available_groups" v with
      | Option.none => some []
      | some (.arr l) => l.mapM groupOfToml
      | _ => Option.none
    let mr ← maxRowOfToml (tomlGet "max_row" v)
    pure { chat_id := cid, theater_id := tid, min_seats := ms, created_at := ca,
           last_available_groups := groups, max_row := mr }
  | _, _, _, _ => Option.none

/-- What `load_db` finds when it opens the database file. -/
inductive ReadResult where
  | absent
  | failure
  | content (doc : TomlV)

/-- Outcome of `load_db`: the mapping it returns, whether it logged an
error, and whether it deleted the database file. -/
structure LoadResult where
  shows : List (String × MonitoredShow)
  logged : Bool
  deleted : Bool
deriving DecidableEq, Repr

/-- Decoding of all records of the `monitored_shows` table. -/
def showsOfToml : List (String × TomlV) → Option (List (String × MonitoredShow))
  | [] => some []
  | (k, v) :: rest => do
    let s ← showOfToml v
    let r ← showsOfToml rest
    pure ((k, s) :: r)

/-- Embedding of `TheaterBot.load_db`: a missing file returns the empty
mapping silently (`except FileNotFoundError: return {}`); any other
read, parse or record failure is caught by the generic handler, which
logs the error, deletes the file and returns the empty mapping. -/
def load_db (r : ReadResult) : LoadResult :=
  match r with
  | .absent => ⟨[], false, false⟩
  | .failure => ⟨[], true, true⟩
  | .content doc =>
    match (tomlGet "monitored_shows" doc).getD (.table []) with
    | .table kvs =>
      match showsOfToml kvs with
      | some shows => ⟨shows, false, false⟩
      | Option.none => ⟨[], true, true⟩
    | _ => ⟨[], true, true⟩

/-! ### The monitoring loop `monitor_show` -/

/-- The per-subscription mutable state read and written by one tick:
the subscription's `last_available_groups` and `max_row`. -/
structure MonState where
  last_available_groups : List Group
  max_row : Option Int
deriving DecidableEq, Repr

/-- The notification payload sent when new groups are found: the new
groups and the total number of currently available groups. -/
structure Notif where
  new_groups : List Group
  total : Nat
deriving DecidableEq, Repr

/-- Embedding of one iteration of the `while` body of
`TheaterBot.monitor_show` (fetch already performed, its result given):
when the fetched list is empty nothing at all happens; otherwise the
seats are grouped with the live `max_row`, diffed against the stored
groups, a notification is produced when the diff is nonempty, and the
stored groups are overwritten and saved.  The returned `Bool` records
whether `save_db` was invoked on this tick.  An exception escaping the
grouping propagates out of the tick body. -/
def tick (min_seats : Nat) (st : MonState) (available_seats : List Seat) :
    Except String (MonState × Bool × Option Notif) :=
  if available_seats.isEmpty then .ok (st, false, none)
  else do
    let adjacent_groups ← find_adjacent_seats available_seats min_seats st.max_row
    let new_groups := compareGroups st.last_available_groups adjacent_groups
    let notif := if new_groups.isEmpty then none
                 else some { new_groups := new_groups, total := adjacent_groups.length }
    .ok ({ st with last_available_groups := adjacent_groups }, true, notif)

/-- One event observed by the monitoring loop at the top of an
iteration: either the subscription key was removed from the store (the
`while` condition fails and the loop exits cleanly), or the fetch
completed with the given available seats (fetch errors are caught
inside `fetch_and_parse_chairmap` and yield `[]`). -/
inductive TickEvent where
  | removed
  | fetched (available_seats : List Seat)

/-- Why the loop stopped. -/
inductive ExitReason where
  | ranOut
  | keyRemoved
  | crashed (e : String)
deriving DecidableEq, Repr

/-- Embedding of the `while` loop of `TheaterBot.monitor_show` run over
a finite schedule of events.  The `try/except` wraps the whole loop in
the source, so the first exception escaping a tick body is logged and
ends the loop: no later event is processed. -/
def monitor_show (min_seats : Nat) (st : MonState) :
    List TickEvent → MonState × List Notif × ExitReason
  | [] => (st, [], .ranOut)
  | .removed :: _ => (st, [], .keyRemoved)
  | .fetched seats :: rest =>
    match tick min_seats st seats with
    | .error e => (st, [], .crashed e)
    | .ok (st1, _, notif) =>
      let (stf, notifs, r) := monitor_show min_seats st1 rest
      (stf, notif.toList ++ notifs, r)

/-- The scanner's sequence decomposition: the same recursion as
`scanRow`, but collecting the closed sequences themselves instead of
the groups they emit. -/
def chunksAux (cur : List Seat) : List Seat → List (List Seat)
  | [] => [cur]
  | s :: rest =>
    match cur.getLast? with
    | some prev =>
      if isConsecutive prev s then chunksAux (cur ++ [s]) rest
      else cur :: chunksAux [s] rest
    | none => chunksAux [s] rest

/-- The consecutiveness relation as a relation between seats. -/
def consecB (a b : Seat) : Prop :=
  isConsecutive a b = true

/-- Strict ordering of seats by the integer value of their chair
labels. -/
def ltChair (a b : Seat) : Prop :=
  chairValI a < chairValI b

/-! ### Synthetic markup and concrete inputs used by the claims -/

/-- Class attribute value of a synthetic seat element. -/
def classOf (occupied : Bool) : String :=
  if occupied then "chair taken" else "chair"

/-- One synthetic anchor element for a `(row, chair, occupied)` triple,
with the attributes in the order the scraper's pattern expects:
class, then `data-chair`, then `data-row`. -/
def seatAnchorChars (row chair : String) (occupied : Bool) : List Char :=
  "<a class=\"".data ++ (classOf occupied).data ++
  "\" data-chair=\"".data ++ chair.data ++
  "\" data-row=\"".data ++ row.data ++ "\">x</a>".data

/-- Characters of a synthetic document for a list of
`(row, chair, occupied)` triples. -/
def buildDocChars : List (String × String × Bool) → List Char
  | [] => []
  | t :: ts => seatAnchorChars t.1 t.2.1 t.2.2 ++ buildDocChars ts

/-- Synthetic document for a list of `(row, chair, occupied)`
triples. -/
def buildDoc (ts : List (String × String × Bool)) : String :=
  ⟨buildDocChars ts⟩

/-- A document whose two elements carry the same three attributes in
the order `data-chair`, `data-row`, `class` instead of the order the
pattern expects. -/
def swappedDoc : String :=
  "<a data-chair=\"1\" data-row=\"5\" class=\"free\">x</a><a data-chair=\"2\" data-row=\"5\" class=\"free\">y</a>"

/-- An available seat, as produced by `fetch_and_parse_chairmap`. -/
def avail (row chair : String) : Seat :=
  ⟨row, chair, "available"⟩

/-- Whether a seat's chair label could extend a group by one place on
either side: a chair whose integer value is one past the group's end or
one before its start. -/
def extendsChair (s : Seat) (g : Group) : Prop :=
  (pyInt s.chair).isSome ∧
    (pyInt s.chair = (pyInt g.end_chair).map (· + 1) ∨
     pyInt s.chair = (pyInt g.start_chair).map (· - 1))

/-- Whether a retained available seat could extend a group by one place
on either side: same row, and a chair label whose integer value is one
past the group's end or one before its start. -/
def extendsGroup (s : Seat) (g : Group) : Prop :=
  s.row = g.row ∧ extendsChair s g

/-- The seats retained by the ceiling step in the claims' sense: all of
them when no ceiling is given, otherwise those whose row label parses
and stays at or below the ceiling. -/
def retainedSeats (seats : List Seat) (max_row : Option Int) : List Seat :=
  match max_row with
  | none => seats
  | some m =>
    seats.filter (fun s =>
      match pyInt s.row with
      | some v => decide (v ≤ m)
      | none => false)

/-- A row with two seats labelled `1` and one labelled `2`: duplicate
chair labels in one row. -/
def dupSeats : List Seat := [avail "1" "1", avail "1" "1", avail "1" "2"]

/-- A row mixing a digit chair label with a non-digit one. -/
def mixedSeats : List Seat := [avail "5" "1", avail "5" "A"]

/-- Seats whose first row label is not numeric, next to a numeric row
above a ceiling of 4. -/
def nonNumRowSeats : List Seat := [avail "A" "1", avail "10" "1", avail "10" "2"]

/-- Two adjacent available seats in row 5. -/
def goodSeats : List Seat := [avail "5" "1", avail "5" "2"]

/-- A subscription record whose optional row ceiling is absent. -/
def showC9 : MonitoredShow :=
  { chat_id := 1, theater_id := "7", min_seats := 2,
    created_at := "2024-01-01T00:00:00", last_available_groups := [],
    max_row := none }


/-! ## Helper lemmas -/

theorem digit_not_space {c : Char} (h : c.isDigit = true) : pySpace c = false := by
  by_contra hc
  rw [Bool.not_eq_false, pySpace] at hc
  have : c = ' ' ∨ c = '\t' ∨ c = '\n' ∨ c = '\r' := by
    simpa [Bool.or_eq_true, beq_iff_eq, or_assoc] using hc
  rcases this with rfl | rfl | rfl | rfl <;> simp [Char.isDigit] at h

theorem pyInt_of_isDigit {s : String} (h : pyIsDigit s = true) :
    pyInt s = some ((digitsVal s.data : Int)) := by
  simp only [pyIsDigit, Bool.and_eq_true, Bool.not_eq_true', List.all_eq_true] at h
  obtain ⟨hne, hall⟩ := h
  have hdrop : s.data.dropWhile pySpace = s.data := by
    cases hd : s.data with
    | nil => simp
    | cons c cs =>
      have : pySpace c = false := digit_not_space (hall c (by simp [hd]))
      simp [List.dropWhile, this]
  have hrev : s.data.reverse.dropWhile pySpace = s.data.reverse := by
    cases hd : s.data.reverse with
    | nil => simp
    | cons c cs =>
      have hc : c ∈ s.data := by
        have : c ∈ s.data.reverse := by simp [hd]
        simpa using this
      have : pySpace c = false := digit_not_space (hall c hc)
      simp [List.dropWhile, this]
  cases hd : s.data with
  | nil => rw [hd] at hne; simp at hne
  | cons c cs =>
    have hcdig : c.isDigit = true := hall c (by simp [hd])
    have hnm : c ≠ '-' := by
      intro hcm; rw [hcm] at hcdig; simp [Char.isDigit] at hcdig
    have hnp : c ≠ '+' := by
      intro hcm; rw [hcm] at hcdig; simp [Char.isDigit] at hcdig
    have hfix : ((s.data.dropWhile pySpace).reverse.dropWhile pySpace).reverse = c :: cs := by
      rw [hdrop, hrev, List.reverse_reverse, hd]
    rw [pyInt, hfix]
    show (if c = '-' then digitsCore cs true
          else if c = '+' then digitsCore cs false
          else digitsCore (c :: cs) false) = some ((digitsVal (c :: cs) : Int))
    rw [if_neg hnm, if_neg hnp, digitsCore, if_pos]
    · simp
    · simp only [List.isEmpty_cons, Bool.not_false, Bool.true_and, List.all_eq_true]
      intro x hx
      exact hall x (hd ▸ hx)

theorem pyInt_isSome_of_isDigit {s : String} (h : pyIsDigit s = true) :
    (pyInt s).isSome = true := by
  rw [pyInt_of_isDigit h]; rfl

/-! ### Lemmas about the literal-by-literal matcher -/

theorem splitAfter_some_le {pat : List Char} :
    ∀ {l r : List Char}, splitAfter pat l = some r → pat.length ≤ l.length := by
  intro l
  induction l with
  | nil =>
    intro r h
    rw [splitAfter] at h
    by_cases hp : pat.isPrefixOf ([] : List Char) = true
    · rw [List.isPrefixOf_iff_prefix] at hp
      simpa using hp.length_le
    · rw [if_neg hp] at h
      cases h
  | cons c t ih =>
    intro r h
    rw [splitAfter] at h
    by_cases hp : pat.isPrefixOf (c :: t) = true
    · rw [List.isPrefixOf_iff_prefix] at hp
      exact hp.length_le
    · rw [if_neg hp] at h
      exact (ih h).trans (by simp)

theorem splitAfter_length_lt {pat : List Char} (hpat : pat ≠ []) :
    ∀ {l r : List Char}, splitAfter pat l = some r → r.length < l.length := by
  intro l
  induction l with
  | nil =>
    intro r h
    rw [splitAfter] at h
    have hp : pat.isPrefixOf ([] : List Char) = false := by
      cases pat with
      | nil => exact absurd rfl hpat
      | cons p ps => rfl
    rw [hp] at h
    cases h
  | cons c t ih =>
    intro r h
    rw [splitAfter] at h
    by_cases hp : pat.isPrefixOf (c :: t) = true
    · rw [if_pos hp] at h
      have hle : pat.length ≤ (c :: t).length := by
        rw [List.isPrefixOf_iff_prefix] at hp
        exact hp.length_le
      have hpos : 0 < pat.length := List.length_pos.mpr hpat
      cases h
      rw [List.length_drop]
      refine Nat.sub_lt (by simp) hpos
    · rw [if_neg hp] at h
      exact (ih h).trans (by simp)

theorem splitAfter_append {pat a b r : List Char} (hpat : pat ≠ [])
    (h : splitAfter pat a = some r) :
    splitAfter pat (a ++ b) = some (r ++ b) := by
  induction a generalizing r with
  | nil =>
    rw [splitAfter] at h
    have hp : pat.isPrefixOf ([] : List Char) = false := by
      cases pat with
      | nil => exact absurd rfl hpat
      | cons p ps => rfl
    rw [hp] at h
    cases h
  | cons c t ih =>
    rw [splitAfter] at h
    by_cases hp : pat.isPrefixOf (c :: t) = true
    · rw [if_pos hp] at h
      cases h
      have hle : pat.length ≤ (c :: t).length := by
        rw [List.isPrefixOf_iff_prefix] at hp
        exact hp.length_le
      have hp2 : pat.isPrefixOf (c :: (t ++ b)) = true := by
        rw [List.isPrefixOf_iff_prefix] at hp ⊢
        exact hp.trans (by
          rw [show c :: (t ++ b) = (c :: t) ++ b from rfl]
          exact List.prefix_append (c :: t) b)
      rw [show (c :: t) ++ b = c :: (t ++ b) from rfl, splitAfter, if_pos hp2]
      rw [show c :: (t ++ b) = (c :: t) ++ b from rfl, List.drop_append_of_le_length hle]
    · rw [if_neg hp] at h
      have hle : pat.length ≤ t.length := splitAfter_some_le h
      have hp2 : ¬ (pat.isPrefixOf (c :: (t ++ b)) = true) := by
        intro hcon
        rw [List.isPrefixOf_iff_prefix] at hcon
        apply hp
        rw [List.isPrefixOf_iff_prefix, List.prefix_iff_eq_take]
        have htake := List.prefix_iff_eq_take.mp hcon
        rw [show c :: (t ++ b) = (c :: t) ++ b from rfl,
          List.take_append_of_le_length (by simp; omega)] at htake
        exact htake
      rw [show (c :: t) ++ b = c :: (t ++ b) from rfl, splitAfter, if_neg hp2]
      exact ih h

theorem splitAfter_cons_append {pat pre X : List Char} (hpat : pat ≠ [])
    (h : splitAfter pat pre = some []) :
    splitAfter pat (pre ++ X) = some X := by
  simpa using splitAfter_append hpat h

theorem captureTo_append {v : List Char} (r : List Char) (hq : ¬ '"' ∈ v) :
    captureTo (v ++ '"' :: r) = some (v, r) := by
  induction v with
  | nil => rfl
  | cons c t ih =>
    have hc : c ≠ '"' := by
      intro hcq
      exact hq (by simp [hcq])
    rw [show (c :: t) ++ '"' :: r = c :: (t ++ '"' :: r) from rfl, captureTo, if_neg hc,
      ih (fun hmem => hq (by simp [hmem]))]
    rfl

theorem captureTo_some_length :
    ∀ {l : List Char} {p : List Char × List Char}, captureTo l = some p → p.2.length < l.length := by
  intro l
  induction l with
  | nil => intro p h; cases h
  | cons c t ih =>
    intro p h
    rw [captureTo] at h
    by_cases hc : c = '"'
    · rw [if_pos hc] at h
      cases h
      simp
    · rw [if_neg hc] at h
      cases hcap : captureTo t with
      | none => rw [hcap] at h; cases h
      | some q =>
        rw [hcap, Option.map_some'] at h
        cases h
        exact Nat.lt_succ_of_lt (@ih q hcap)

theorem matchSeat_some_length {l : List Char} {cls chair row : String} {rest : List Char}
    (h : matchSeat l = some (cls, chair, row, rest)) : rest.length < l.length := by
  rw [matchSeat] at h
  simp only [Option.bind_eq_bind, Option.bind_eq_some, Option.pure_def,
    Option.some.injEq] at h
  obtain ⟨l1, h1, p1, h2, l3, h3, p2, h4, l5, h5, p3, h6, l7, h7, heq⟩ := h
  have e1 : l1.length < l.length := splitAfter_length_lt (by decide) h1
  have e2 : p1.2.length < l1.length := captureTo_some_length h2
  have e3 : l3.length < p1.2.length := splitAfter_length_lt (by decide) h3
  have e4 : p2.2.length < l3.length := captureTo_some_length h4
  have e5 : l5.length < p2.2.length := splitAfter_length_lt (by decide) h5
  have e6 : p3.2.length < l5.length := captureTo_some_length h6
  have e7 : l7.length < p3.2.length := splitAfter_length_lt (by decide) h7
  have hrest : l7 = rest := congrArg (fun q => q.2.2.2) heq
  rw [← hrest]
  omega

theorem findallAux_nil (f : Nat) : findallAux f [] = [] := by
  cases f <;> rfl

theorem findallAux_eq_of_le :
    ∀ (f1 : Nat) {f2 : Nat} {l : List Char}, l.length ≤ f1 → l.length ≤ f2 →
      findallAux f1 l = findallAux f2 l := by
  intro f1
  induction f1 with
  | zero =>
    intro f2 l h1 _
    have : l = [] := List.length_eq_zero.mp (Nat.le_zero.mp h1)
    rw [this, findallAux_nil, findallAux_nil]
  | succ g ih =>
    intro f2 l h1 h2
    cases f2 with
    | zero =>
      have : l = [] := List.length_eq_zero.mp (Nat.le_zero.mp h2)
      rw [this, findallAux_nil, findallAux_nil]
    | succ k =>
      cases hsp : splitAfter ['<', 'a'] l with
      | none => simp only [findallAux, hsp]
      | some rest =>
        simp only [findallAux, hsp]
        cases hm : matchSeat rest with
        | none => rfl
        | some q =>
          obtain ⟨cls, chair, row, rest'⟩ := q
          have hlt1 : rest.length < l.length := splitAfter_length_lt (by decide) hsp
          have hlt2 : rest'.length < rest.length := matchSeat_some_length hm
          have hle : rest'.length ≤ g := by omega
          have hle2 : rest'.length ≤ k := by omega
          show (cls, chair, row) :: findallAux g rest' = (cls, chair, row) :: findallAux k rest'
          rw [ih hle hle2]

/-! ### Parsing a canonical synthetic document -/

theorem classOf_no_quote (occ : Bool) : ¬ '"' ∈ (classOf occ).data := by
  cases occ <;> decide

theorem matchSeat_anchor (row chair : String) (occ : Bool) (rest : List Char)
    (hr : ¬ '"' ∈ row.data) (hc : ¬ '"' ∈ chair.data) :
    matchSeat (" class=\"".data ++ ((classOf occ).data ++ ("\" data-chair=\"".data ++
        (chair.data ++ ("\" data-row=\"".data ++ (row.data ++ ("\">x</a>".data ++ rest)))))))
      = some (classOf occ, chair, row, rest) := by
  have e1 : splitAfter "class=\"".data (" class=\"".data ++ ((classOf occ).data ++
      ("\" data-chair=\"".data ++ (chair.data ++ ("\" data-row=\"".data ++
        (row.data ++ ("\">x</a>".data ++ rest)))))))
      = some ((classOf occ).data ++ ("\" data-chair=\"".data ++ (chair.data ++
          ("\" data-row=\"".data ++ (row.data ++ ("\">x</a>".data ++ rest)))))) :=
    splitAfter_cons_append (by decide) (by decide)
  have e2 : captureTo ((classOf occ).data ++ ("\" data-chair=\"".data ++ (chair.data ++
      ("\" data-row=\"".data ++ (row.data ++ ("\">x</a>".data ++ rest))))))
      = some ((classOf occ).data, " data-chair=\"".data ++ (chair.data ++
          ("\" data-row=\"".data ++ (row.data ++ ("\">x</a>".data ++ rest))))) := by
    rw [show ("\" data-chair=\"".data ++ (chair.data ++ ("\" data-row=\"".data ++
        (row.data ++ ("\">x</a>".data ++ rest)))))
      = '"' :: (" data-chair=\"".data ++ (chair.data ++ ("\" data-row=\"".data ++
        (row.data ++ ("\">x</a>".data ++ rest))))) from rfl]
    exact captureTo_append _ (classOf_no_quote occ)
  have e3 : splitAfter "data-chair=\"".data (" data-chair=\"".data ++ (chair.data ++
      ("\" data-row=\"".data ++ (row.data ++ ("\">x</a>".data ++ rest)))))
      = some (chair.data ++ ("\" data-row=\"".data ++ (row.data ++ ("\">x</a>".data ++ rest)))) :=
    splitAfter_cons_append (by decide) (by decide)
  have e4 : captureTo (chair.data ++ ("\" data-row=\"".data ++ (row.data ++
      ("\">x</a>".data ++ rest))))
      = some (chair.data, " data-row=\"".data ++ (row.data ++ ("\">x</a>".data ++ rest))) := by
    rw [show ("\" data-row=\"".data ++ (row.data ++ ("\">x</a>".data ++ rest)))
      = '"' :: (" data-row=\"".data ++ (row.data ++ ("\">x</a>".data ++ rest))) from rfl]
    exact captureTo_append _ hc
  have e5 : splitAfter "data-row=\"".data (" data-row=\"".data ++ (row.data ++
      ("\">x</a>".data ++ rest)))
      = some (row.data ++ ("\">x</a>".data ++ rest)) :=
    splitAfter_cons_append (by decide) (by decide)
  have e6 : captureTo (row.data ++ ("\">x</a>".data ++ rest))
      = some (row.data, ">x</a>".data ++ rest) := by
    rw [show ("\">x</a>".data ++ rest) = '"' :: (">x</a>".data ++ rest) from rfl]
    exact captureTo_append _ hr
  have e7 : splitAfter "</a>".data (">x</a>".data ++ rest) = some rest :=
    splitAfter_cons_append (by decide) (by decide)
  rw [matchSeat, e1]
  simp only [Option.bind_eq_bind, Option.some_bind]
  rw [e2]
  simp only [Option.some_bind]
  rw [e3]
  simp only [Option.some_bind]
  rw [e4]
  simp only [Option.some_bind]
  rw [e5]
  simp only [Option.some_bind]
  rw [e6]
  simp only [Option.some_bind]
  rw [e7]
  simp only [Option.some_bind, Option.pure_def]

theorem findallAux_step {f : Nat} {l rest : List Char} {cls chair row : String}
    {rest' : List Char}
    (hsp : splitAfter ['<', 'a'] l = some rest)
    (hm : matchSeat rest = some (cls, chair, row, rest')) :
    findallAux (f + 1) l = (cls, chair, row) :: findallAux f rest' := by
  rw [findallAux, hsp]
  show (match matchSeat rest with
    | none => []
    | some (cls, chair, row, rest') => (cls, chair, row) :: findallAux f rest') = _
  rw [hm]

theorem seatAnchorChars_ne_nil (row chair : String) (occ : Bool) :
    seatAnchorChars row chair occ ≠ [] := by
  rw [seatAnchorChars, show "<a class=\"".data = '<' :: "a class=\"".data from rfl]
  simp

theorem findall_buildDoc (ts : List (String × String × Bool))
    (h : ∀ t ∈ ts, ¬ '"' ∈ (t.1 : String).data ∧ ¬ '"' ∈ (t.2.1 : String).data) :
    ∀ f : Nat, (buildDocChars ts).length ≤ f →
      findallAux f (buildDocChars ts) = ts.map (fun t => (classOf t.2.2, t.2.1, t.1)) := by
  induction ts with
  | nil =>
    intro f _
    rw [buildDocChars, findallAux_nil, List.map_nil]
  | cons t ts ih =>
    intro f hf
    obtain ⟨row, chair, occ⟩ := t
    have hpos : 0 < (seatAnchorChars row chair occ).length :=
      List.length_pos.mpr (seatAnchorChars_ne_nil row chair occ)
    cases f with
    | zero =>
      exfalso
      rw [buildDocChars] at hf
      simp only [List.length_append, Nat.le_zero] at hf
      omega
    | succ g =>
      rw [buildDocChars]
      have hsp : splitAfter ['<', 'a'] (seatAnchorChars row chair occ ++ buildDocChars ts)
          = some (" class=\"".data ++ ((classOf occ).data ++ ("\" data-chair=\"".data ++
            (chair.data ++ ("\" data-row=\"".data ++ (row.data ++
              ("\">x</a>".data ++ buildDocChars ts))))))) := by
        rw [seatAnchorChars]
        simp only [List.append_assoc]
        have := @splitAfter_append ['<', 'a'] ("<a class=\"".data)
          ((classOf occ).data ++ ("\" data-chair=\"".data ++ (chair.data ++
            ("\" data-row=\"".data ++ (row.data ++ ("\">x</a>".data ++ buildDocChars ts))))))
          (" class=\"".data) (by decide) (by decide)
        simpa [List.append_assoc] using this
      rw [findallAux_step hsp (matchSeat_anchor row chair occ (buildDocChars ts)
        (h (row, chair, occ) (by simp)).1 (h (row, chair, occ) (by simp)).2)]
      have hrest : (buildDocChars ts).length ≤ g := by
        simp only [buildDocChars, List.length_append] at hf
        omega
      rw [ih (fun u hu => h u (by simp [hu])) g hrest, List.map_cons]

theorem containsTaken_classOf (occ : Bool) : containsTaken (classOf occ) = occ := by
  cases occ <;> rfl

/-! ## Claim C5 — the seat parser -/

/-- C5 counterexample: a document whose elements carry the attributes
in the order `data-chair`, `data-row`, `class` is not recovered: the
lazy pattern takes the class attribute from the first element and the
chair and row attributes from the second, merging two seats into one
wrong record, so the parser is not tolerant of attribute order. -/
theorem C5_parser_order_counterexample :
    parse_seats_from_html swappedDoc = [⟨"5", "2", "available"⟩]
    ∧ ([⟨"5", "2", "available"⟩] : List Seat)
        ≠ [⟨"5", "1", "available"⟩, ⟨"5", "2", "available"⟩] :=
  ⟨by decide, by decide⟩

/-- C5 amended: for every list of `(row, seat number, occupied)` triples
whose labels contain no double quote, the parser recovers exactly that
list in document order from the synthetic document whose elements list
the attributes in the pattern's order — class, then `data-chair`, then
`data-row` — with `occupied` reflected exactly when the class attribute
contains `taken`; other attribute orders are not tolerated. -/
theorem C5_parser_roundtrip_amended (ts : List (String × String × Bool))
    (h : ∀ t ∈ ts, ¬ '"' ∈ (t.1 : String).data ∧ ¬ '"' ∈ (t.2.1 : String).data) :
    parse_seats_from_html (buildDoc ts)
      = ts.map (fun t =>
          (⟨t.1, t.2.1, if t.2.2 then "taken" else "available"⟩ : Seat)) := by
  rw [parse_seats_from_html]
  have hdata : (buildDoc ts).data = buildDocChars ts := rfl
  rw [hdata, findallSeats, findall_buildDoc ts h _ (Nat.le_refl _), List.map_map]
  apply List.map_congr_left
  intro t _
  obtain ⟨row, chair, occ⟩ := t
  cases occ <;> simp [classOf] <;> decide

/-- C5 witness: the canonical document for two concrete seats parses
back to exactly those seats. -/
theorem C5_parser_roundtrip_witness :
    parse_seats_from_html (buildDoc [("5", "1", false), ("5", "2", true)])
      = [("5", "1", false), ("5", "2", true)].map
          (fun t => (⟨t.1, t.2.1, if t.2.2 then "taken" else "available"⟩ : Seat)) :=
  C5_parser_roundtrip_amended [("5", "1", false), ("5", "2", true)] (by decide)

/-! ### The sequence decomposition of a sorted row

`scanRow` emits exactly the long-enough sequences of the decomposition
computed by `chunksAux`; the lemmas below characterise that
decomposition: its sequences concatenate back to the row, are nonempty,
are chains of consecutive seats, and adjacent sequences are separated
by a failed consecutiveness test. -/

theorem chunksAux_cons_some {cur : List Seat} {prev : Seat} (hl : cur.getLast? = some prev)
    (s : Seat) (rest : List Seat) :
    chunksAux cur (s :: rest)
      = if isConsecutive prev s = true then chunksAux (cur ++ [s]) rest
        else cur :: chunksAux [s] rest := by
  rw [chunksAux, hl]

theorem chunksAux_cons_none {cur : List Seat} (hl : cur.getLast? = none)
    (s : Seat) (rest : List Seat) :
    chunksAux cur (s :: rest) = chunksAux [s] rest := by
  rw [chunksAux, hl]

theorem scanRow_cons_some {cur : List Seat} {prev : Seat} (hl : cur.getLast? = some prev)
    (m : Nat) (row : String) (s : Seat) (rest : List Seat) :
    scanRow m row cur (s :: rest)
      = if isConsecutive prev s = true then scanRow m row (cur ++ [s]) rest
        else flushSeq m row cur ++ scanRow m row [s] rest := by
  rw [scanRow, hl]

theorem scanRow_cons_none {cur : List Seat} (hl : cur.getLast? = none)
    (m : Nat) (row : String) (s : Seat) (rest : List Seat) :
    scanRow m row cur (s :: rest) = scanRow m row [s] rest := by
  rw [scanRow, hl]

theorem scanRow_eq_chunks (m : Nat) (row : String) :
    ∀ (l cur : List Seat),
      scanRow m row cur l
        = ((chunksAux cur l).filter (fun c => m ≤ c.length)).map (seqGroup row) := by
  intro l
  induction l with
  | nil =>
    intro cur
    rw [scanRow, chunksAux, flushSeq]
    by_cases h : m ≤ cur.length
    · simp [List.filter, h]
    · simp [List.filter, h]
  | cons s rest ih =>
    intro cur
    cases hl : cur.getLast? with
    | none => rw [scanRow_cons_none hl, chunksAux_cons_none hl]; exact ih [s]
    | some prev =>
      rw [scanRow_cons_some hl, chunksAux_cons_some hl]
      by_cases hcons : isConsecutive prev s = true
      · rw [if_pos hcons, if_pos hcons]
        exact ih (cur ++ [s])
      · rw [if_neg hcons, if_neg hcons, ih [s]]
        by_cases h : m ≤ cur.length
        · simp [List.filter_cons, h, flushSeq]
        · simp [List.filter_cons, h, flushSeq]

theorem chunksAux_flatten : ∀ (l cur : List Seat), (chunksAux cur l).flatten = cur ++ l := by
  intro l
  induction l with
  | nil => intro cur; simp [chunksAux]
  | cons s rest ih =>
    intro cur
    cases hl : cur.getLast? with
    | none =>
      have hcur : cur = [] := List.getLast?_eq_none_iff.mp hl
      subst hcur
      rw [chunksAux_cons_none hl]
      simpa using ih [s]
    | some prev =>
      rw [chunksAux_cons_some hl]
      by_cases hcons : isConsecutive prev s = true
      · rw [if_pos hcons, ih (cur ++ [s])]
        simp
      · rw [if_neg hcons, List.flatten_cons, ih [s]]
        simp

theorem chunksAux_ne_nil_list : ∀ (l cur : List Seat), chunksAux cur l ≠ [] := by
  intro l
  induction l with
  | nil => intro cur; simp [chunksAux]
  | cons s rest ih =>
    intro cur
    cases hl : cur.getLast? with
    | none => rw [chunksAux_cons_none hl]; exact ih [s]
    | some prev =>
      rw [chunksAux_cons_some hl]
      by_cases hcons : isConsecutive prev s = true
      · rw [if_pos hcons]; exact ih (cur ++ [s])
      · rw [if_neg hcons]; simp

theorem chunksAux_ne_nil : ∀ (l cur : List Seat), cur ≠ [] →
    ∀ c ∈ chunksAux cur l, c ≠ [] := by
  intro l
  induction l with
  | nil =>
    intro cur hcur c hc
    rw [chunksAux] at hc
    simp only [List.mem_singleton] at hc
    subst hc
    exact hcur
  | cons s rest ih =>
    intro cur hcur c hc
    cases hl : cur.getLast? with
    | none => exact absurd (List.getLast?_eq_none_iff.mp hl) hcur
    | some prev =>
      rw [chunksAux_cons_some hl] at hc
      by_cases hcons : isConsecutive prev s = true
      · rw [if_pos hcons] at hc
        exact ih (cur ++ [s]) (by simp) c hc
      · rw [if_neg hcons] at hc
        rcases List.mem_cons.mp hc with hceq | hcm
        · subst hceq; exact hcur
        · exact ih [s] (by simp) c hcm

theorem chunksAux_chain : ∀ (l cur : List Seat), List.Chain' consecB cur →
    ∀ c ∈ chunksAux cur l, List.Chain' consecB c := by
  intro l
  induction l with
  | nil =>
    intro cur hcur c hc
    rw [chunksAux] at hc
    simp only [List.mem_singleton] at hc
    subst hc
    exact hcur
  | cons s rest ih =>
    intro cur hcur c hc
    cases hl : cur.getLast? with
    | none =>
      rw [chunksAux_cons_none hl] at hc
      exact ih [s] (List.chain'_singleton s) c hc
    | some prev =>
      rw [chunksAux_cons_some hl] at hc
      by_cases hcons : isConsecutive prev s = true
      · rw [if_pos hcons] at hc
        refine ih (cur ++ [s]) ?_ c hc
        rw [List.chain'_append]
        refine ⟨hcur, List.chain'_singleton s, ?_⟩
        intro x hx y hy
        rw [hl] at hx
        simp only [Option.mem_def, Option.some.injEq] at hx
        simp only [List.head?_cons, Option.mem_def, Option.some.injEq] at hy
        subst hx
        subst hy
        exact hcons
      · rw [if_neg hcons] at hc
        rcases List.mem_cons.mp hc with hceq | hcm
        · subst hceq; exact hcur
        · exact ih [s] (List.chain'_singleton s) c hcm

theorem chunksAux_first_head : ∀ (l cur : List Seat), cur ≠ [] →
    ∀ {c : List Seat} {cs : List (List Seat)}, chunksAux cur l = c :: cs →
      c.head? = cur.head? := by
  intro l
  induction l with
  | nil =>
    intro cur _ c cs hc
    rw [chunksAux] at hc
    injection hc with h1 _
    rw [h1]
  | cons s rest ih =>
    intro cur hcur c cs hc
    cases hl : cur.getLast? with
    | none => exact absurd (List.getLast?_eq_none_iff.mp hl) hcur
    | some prev =>
      rw [chunksAux_cons_some hl] at hc
      by_cases hcons : isConsecutive prev s = true
      · rw [if_pos hcons] at hc
        have hih := ih (cur ++ [s]) (by simp) hc
        rw [hih]
        cases cur with
        | nil => exact absurd rfl hcur
        | cons x xs => rfl
      · rw [if_neg hcons] at hc
        injection hc with h1 _
        rw [h1]

theorem chunksAux_boundary : ∀ (l cur : List Seat),
    List.Chain' (fun c d => ∀ x ∈ c.getLast?, ∀ y ∈ d.head?, isConsecutive x y = false)
      (chunksAux cur l) := by
  intro l
  induction l with
  | nil => intro cur; rw [chunksAux]; exact List.chain'_singleton cur
  | cons s rest ih =>
    intro cur
    cases hl : cur.getLast? with
    | none => rw [chunksAux_cons_none hl]; exact ih [s]
    | some prev =>
      rw [chunksAux_cons_some hl]
      by_cases hcons : isConsecutive prev s = true
      · rw [if_pos hcons]
        exact ih (cur ++ [s])
      · rw [if_neg hcons]
        rw [List.chain'_cons']
        refine ⟨?_, ih [s]⟩
        intro d hd x hx y hy
        cases hrec : chunksAux [s] rest with
        | nil => exact absurd hrec (chunksAux_ne_nil_list rest [s])
        | cons c0 cs0 =>
          rw [hrec] at hd
          simp only [List.head?_cons, Option.mem_def, Option.some.injEq] at hd
          rw [← hd] at hy
          have hh : c0.head? = ([s] : List Seat).head? :=
            chunksAux_first_head rest [s] (by simp) hrec
          rw [hh] at hy
          simp only [List.head?_cons, Option.mem_def, Option.some.injEq] at hy
          subst hy
          rw [hl] at hx
          simp only [Option.mem_def, Option.some.injEq] at hx
          subst hx
          simpa using hcons

/-! ### Arithmetic along a chain of consecutive seats -/

theorem isConsecutive_iff {p c : Seat} :
    isConsecutive p c = true
      ↔ ∃ pv, pyInt p.chair = some pv ∧ pyInt c.chair = some (pv + 1) := by
  cases hp : pyInt p.chair with
  | none => simp [isConsecutive, hp]
  | some pv =>
    cases hc : pyInt c.chair with
    | none => simp [isConsecutive, hp, hc]
    | some cv =>
      simp only [isConsecutive, hp, hc, beq_iff_eq, Option.some.injEq]
      constructor
      · intro h
        exact ⟨pv, rfl, h⟩
      · rintro ⟨pv2, h1, h2⟩
        subst h1
        exact h2

theorem chain_get : ∀ (c : List Seat), List.Chain' consecB c →
    ∀ (f : Seat), c.head? = some f → ∀ (v : Int), pyInt f.chair = some v →
    ∀ (i : Nat) (hi : i < c.length), pyInt (c.get ⟨i, hi⟩).chair = some (v + i) := by
  intro c
  induction c with
  | nil => intro _ f hf; cases hf
  | cons x tl ih =>
    intro hc f hf v hv i hi
    rw [List.head?_cons, Option.some.injEq] at hf
    subst hf
    cases tl with
    | nil =>
      have hi0 : i = 0 := by
        simp only [List.length_cons, List.length_nil] at hi
        omega
      subst hi0
      simpa using hv
    | cons y tl2 =>
      rw [List.chain'_cons] at hc
      obtain ⟨hxy, hrest⟩ := hc
      obtain ⟨pv, hpx, hpy⟩ := isConsecutive_iff.mp hxy
      rw [hv] at hpx
      injection hpx with hpv
      subst hpv
      cases i with
      | zero => simpa using hv
      | succ j =>
        have hj : j < (y :: tl2).length := by
          simp only [List.length_cons] at hi ⊢
          omega
        have hrec := ih hrest y rfl (v + 1) hpy j hj
        rw [show ((x :: y :: tl2).get ⟨j + 1, hi⟩) = ((y :: tl2).get ⟨j, hj⟩) from rfl,
          hrec]
        congr 1
        push_cast
        ring

theorem chain_getLast {c : List Seat} (hc : List.Chain' consecB c) (hne : c ≠ [])
    {f : Seat} (hf : c.head? = some f) {v : Int} (hv : pyInt f.chair = some v) :
    ∃ lst, c.getLast? = some lst
      ∧ pyInt lst.chair = some (v + (c.length : Int) - 1) := by
  have hpos : 0 < c.length := List.length_pos.mpr hne
  have hi : c.length - 1 < c.length := by omega
  refine ⟨c.get ⟨c.length - 1, hi⟩, ?_, ?_⟩
  · rw [List.getLast?_eq_getLast c hne, List.getLast_eq_get]
  · rw [chain_get c hc f hf v hv (c.length - 1) hi]
    congr 1
    omega

theorem chain_mem_val {c : List Seat} (hc : List.Chain' consecB c)
    {f : Seat} (hf : c.head? = some f) {v : Int} (hv : pyInt f.chair = some v) :
    ∀ s ∈ c, ∃ w, pyInt s.chair = some w ∧ v ≤ w ∧ w ≤ v + (c.length : Int) - 1 := by
  intro s hs
  obtain ⟨⟨i, hi⟩, hget⟩ := List.mem_iff_get.mp hs
  refine ⟨v + i, ?_, by omega, ?_⟩
  · rw [← hget]
    exact chain_get c hc f hf v hv i hi
  · have : (i : Int) ≤ (c.length : Int) - 1 := by omega
    omega

theorem chain_numeric_of_two {c : List Seat} (hc : List.Chain' consecB c)
    (h2 : 2 ≤ c.length) : ∃ f v, c.head? = some f ∧ pyInt f.chair = some v := by
  cases c with
  | nil => simp at h2
  | cons x tl =>
    cases tl with
    | nil => simp at h2
    | cons y tl2 =>
      rw [List.chain'_cons] at hc
      obtain ⟨pv, hpx, _⟩ := isConsecutive_iff.mp hc.1
      exact ⟨x, pv, rfl, hpx⟩

theorem chairValI_eq {s : Seat} {w : Int} (h : pyInt s.chair = some w) :
    chairValI s = w := by
  rw [chairValI, h]
  rfl

/-! ### No seat can extend a separated chain -/

theorem no_right_extension {pre c post : List Seat}
    (hpl : List.Pairwise ltChair (pre ++ (c ++ post)))
    (hnum : ∀ s ∈ pre ++ (c ++ post), (pyInt s.chair).isSome = true)
    (hc : List.Chain' consecB c) (hcne : c ≠ [])
    (hb : ∀ x ∈ c.getLast?, ∀ y ∈ post.head?, isConsecutive x y = false)
    {lst : Seat} (hlst : c.getLast? = some lst)
    {s : Seat} (hs : s ∈ pre ++ (c ++ post)) {lv : Int}
    (hlv : pyInt lst.chair = some lv) :
    pyInt s.chair ≠ some (lv + 1) := by
  intro hcon
  obtain ⟨f, hf⟩ : ∃ f, c.head? = some f := by
    cases c with
    | nil => exact absurd rfl hcne
    | cons a b => exact ⟨a, rfl⟩
  have hfc : f ∈ c := List.mem_of_mem_head? hf
  have hlstc : lst ∈ c := List.mem_of_mem_getLast? hlst
  obtain ⟨v, hv⟩ := Option.isSome_iff_exists.mp
    (hnum f (List.mem_append.mpr (Or.inr (List.mem_append.mpr (Or.inl hfc)))))
  obtain ⟨lst2, hlst2, hlstv⟩ := chain_getLast hc hcne hf hv
  rw [hlst] at hlst2
  injection hlst2 with he
  subst he
  rw [hlv] at hlstv
  injection hlstv with hlv2
  have hsplit := List.pairwise_append.mp hpl
  have hsplit2 := List.pairwise_append.mp hsplit.2.1
  rcases List.mem_append.mp hs with hpre | hrest
  · have hlt : ltChair s lst :=
      hsplit.2.2 s hpre lst (List.mem_append.mpr (Or.inl hlstc))
    rw [ltChair, chairValI_eq hcon, chairValI_eq hlv] at hlt
    omega
  rcases List.mem_append.mp hrest with hcm | hpost
  · obtain ⟨w, hw, _, hwub⟩ := chain_mem_val hc hf hv s hcm
    rw [hcon] at hw
    injection hw with hw2
    omega
  · obtain ⟨h0, hh0⟩ : ∃ h0, post.head? = some h0 := by
      cases post with
      | nil => simp at hpost
      | cons a b => exact ⟨a, rfl⟩
    have hlt1 : ltChair lst h0 :=
      hsplit2.2.2 lst hlstc h0 (List.mem_of_mem_head? hh0)
    have hle2 : h0 = s ∨ ltChair h0 s := by
      cases post with
      | nil => simp at hpost
      | cons a b =>
        injection hh0 with hh0e
        subst hh0e
        rcases List.mem_cons.mp hpost with hse | hsb
        · exact Or.inl hse.symm
        · exact Or.inr ((List.pairwise_cons.mp hsplit2.2.1).1 s hsb)
    obtain ⟨w0, hw0⟩ := Option.isSome_iff_exists.mp
      (hnum h0 (List.mem_append.mpr (Or.inr (List.mem_append.mpr
        (Or.inr (List.mem_of_mem_head? hh0))))))
    have hw0lb : lv < w0 := by
      rw [ltChair, chairValI_eq hlv, chairValI_eq hw0] at hlt1
      exact hlt1
    have hw0ub : w0 ≤ lv + 1 := by
      rcases hle2 with he | hlt2
      · subst he
        rw [hcon] at hw0
        injection hw0 with hw0e
        omega
      · rw [ltChair, chairValI_eq hw0, chairValI_eq hcon] at hlt2
        omega
    have hw0eq : w0 = lv + 1 := by omega
    have hctrue : isConsecutive lst h0 = true :=
      isConsecutive_iff.mpr ⟨lv, hlv, by rw [hw0, hw0eq]⟩
    have hfalse := hb lst hlst h0 hh0
    rw [hctrue] at hfalse
    cases hfalse

theorem no_left_extension {pre c post : List Seat}
    (hpl : List.Pairwise ltChair (pre ++ (c ++ post)))
    (hnum : ∀ s ∈ pre ++ (c ++ post), (pyInt s.chair).isSome = true)
    (hc : List.Chain' consecB c) (hcne : c ≠ [])
    (hb : ∀ x ∈ pre.getLast?, ∀ y ∈ c.head?, isConsecutive x y = false)
    {f : Seat} (hf : c.head? = some f)
    {s : Seat} (hs : s ∈ pre ++ (c ++ post)) {fv : Int}
    (hfv : pyInt f.chair = some fv) :
    pyInt s.chair ≠ some (fv - 1) := by
  intro hcon
  have hfc : f ∈ c := List.mem_of_mem_head? hf
  have hsplit := List.pairwise_append.mp hpl
  have hsplit2 := List.pairwise_append.mp hsplit.2.1
  rcases List.mem_append.mp hs with hpre | hrest
  · -- s in pre: the last element of pre is at least s and below f
    have hpne : pre ≠ [] := by
      intro he
      rw [he] at hpre
      cases hpre
    set p := pre.getLast hpne with hp
    have hplast : pre.getLast? = some p := List.getLast?_eq_getLast pre hpne
    have hpmem : p ∈ pre := List.getLast_mem hpne
    obtain ⟨w, hw⟩ := Option.isSome_iff_exists.mp
      (hnum p (List.mem_append.mpr (Or.inl hpmem)))
    have hwub : chairValI p < fv := by
      have := hsplit.2.2 p hpmem f (List.mem_append.mpr (Or.inl hfc))
      rw [ltChair, chairValI_eq hfv] at this
      exact this
    have hslb : chairValI s ≤ chairValI p := by
      have hdecomp : pre.dropLast ++ [p] = pre := List.dropLast_concat_getLast hpne
      rcases List.mem_append.mp (by rw [hdecomp]; exact hpre :
          s ∈ pre.dropLast ++ [p]) with hsd | hsp
      · have hpw := List.pairwise_append.mp (by rw [hdecomp]; exact hsplit.1 :
          List.Pairwise ltChair (pre.dropLast ++ [p]))
        have := hpw.2.2 s hsd p (by simp)
        rw [ltChair] at this
        omega
      · simp only [List.mem_singleton] at hsp
        subst hsp
        omega
    rw [chairValI_eq hcon] at hslb
    have hweq : chairValI p = fv - 1 := by omega
    have hctrue : isConsecutive p f = true := by
      refine isConsecutive_iff.mpr ⟨fv - 1, ?_, by rw [hfv]; congr 1; omega⟩
      rw [chairValI_eq hw] at hweq
      rw [hw, hweq]
    have hfalse := hb p hplast f hf
    rw [hctrue] at hfalse
    cases hfalse
  rcases List.mem_append.mp hrest with hcm | hpost
  · obtain ⟨w, hw, hwlb, _⟩ := chain_mem_val hc hf hfv s hcm
    rw [hcon] at hw
    injection hw with hw2
    omega
  · have hlt : ltChair f s :=
      hsplit2.2.2 f hfc s hpost
    rw [ltChair, chairValI_eq hfv, chairValI_eq hcon] at hlt
    omega

/-! ### Head and last of a flattened chunk list -/

theorem flatten_ne_nil {cs : List (List Seat)} (hcs : cs ≠ [])
    (hne : ∀ c ∈ cs, c ≠ []) : cs.flatten ≠ [] := by
  cases cs with
  | nil => exact absurd rfl hcs
  | cons c0 cs2 =>
    rw [List.flatten_cons]
    intro h
    rcases List.append_eq_nil.mp h with ⟨h1, _⟩
    exact hne c0 (by simp) h1

theorem flatten_head? {cs : List (List Seat)} {c0 : List Seat}
    (h : cs.head? = some c0) (hc0 : c0 ≠ []) : cs.flatten.head? = c0.head? := by
  cases cs with
  | nil => cases h
  | cons d ds =>
    injection h with he
    subst he
    rw [List.flatten_cons]
    exact List.head?_append_of_ne_nil _ hc0

theorem flatten_getLast? : ∀ {cs : List (List Seat)} {lc : List Seat},
    cs.getLast? = some lc → (∀ c ∈ cs, c ≠ []) →
    cs.flatten.getLast? = lc.getLast? := by
  intro cs
  induction cs with
  | nil => intro lc h _; cases h
  | cons d ds ih =>
    intro lc h hne
    cases ds with
    | nil =>
      injection h with he
      subst he
      simp
    | cons e es =>
      rw [List.getLast?_cons_cons] at h
      have hflne : (e :: es : List (List Seat)).flatten ≠ [] :=
        flatten_ne_nil (by simp) (fun c hc => hne c (by simp [hc]))
      rw [List.flatten_cons, List.getLast?_append_of_ne_nil _ hflne]
      exact ih h (fun c hc => hne c (by simp [hc]))

/-! ### Membership in the scanner output -/

theorem processRow_cons {m : Nat} {row : String} {s0 : Seat} {rest : List Seat}
    (hlen : ¬ ((s0 :: rest : List Seat).length < m)) :
    processRow m row (s0 :: rest) = scanRow m row [s0] rest := by
  rw [processRow, if_neg hlen]

theorem processRow_mem {m : Nat} {row : String} {ss : List Seat} {g : Group}
    (h : g ∈ processRow m row ss) :
    ∃ s0 rest c, ss = s0 :: rest ∧ c ∈ chunksAux [s0] rest ∧ m ≤ c.length
      ∧ g = seqGroup row c := by
  by_cases hlen : ss.length < m
  · rw [processRow.eq_def, if_pos hlen] at h
    exact absurd h (List.not_mem_nil g)
  · cases ss with
    | nil =>
      rw [processRow.eq_def, if_neg hlen] at h
      exact absurd h (List.not_mem_nil g)
    | cons s0 rest =>
      rw [processRow_cons hlen, scanRow_eq_chunks] at h
      obtain ⟨c, hcmem, hceq⟩ := List.mem_map.mp h
      obtain ⟨hcm, hclen⟩ := List.mem_filter.mp hcmem
      exact ⟨s0, rest, c, rfl, hcm, by simpa using hclen, hceq.symm⟩

theorem chunksAux_length_le {s0 : Seat} {rest c : List Seat}
    (hcm : c ∈ chunksAux [s0] rest) : c.length ≤ (s0 :: rest : List Seat).length := by
  obtain ⟨cs1, cs2, hdec⟩ := List.append_of_mem hcm
  have hflat := chunksAux_flatten rest [s0]
  rw [hdec, List.flatten_append, List.flatten_cons] at hflat
  have := congrArg List.length hflat
  simp only [List.length_append, List.singleton_append, List.length_cons] at this
  simp only [List.length_cons]
  omega

theorem processRow_mem_intro {m : Nat} {row : String} {s0 : Seat} {rest : List Seat}
    {c : List Seat} (hcm : c ∈ chunksAux [s0] rest) (hclen : m ≤ c.length) :
    seqGroup row c ∈ processRow m row (s0 :: rest) := by
  have hlen : ¬ ((s0 :: rest : List Seat).length < m) := by
    have := chunksAux_length_le hcm
    omega
  rw [processRow_cons hlen, scanRow_eq_chunks]
  exact List.mem_map.mpr ⟨c, List.mem_filter.mpr ⟨hcm, by simpa using hclen⟩, rfl⟩

/-! ### Decomposition of a row around one scanner sequence -/

theorem chunk_decomp {s0 : Seat} {rest c : List Seat} (hcm : c ∈ chunksAux [s0] rest) :
    ∃ pre post, (s0 :: rest : List Seat) = pre ++ (c ++ post)
      ∧ (∀ x ∈ pre.getLast?, ∀ y ∈ c.head?, isConsecutive x y = false)
      ∧ (∀ x ∈ c.getLast?, ∀ y ∈ post.head?, isConsecutive x y = false) := by
  obtain ⟨cs1, cs2, hdec⟩ := List.append_of_mem hcm
  have hflat := chunksAux_flatten rest [s0]
  rw [hdec, List.flatten_append, List.flatten_cons] at hflat
  have hnecs : ∀ d ∈ cs1 ++ c :: cs2, d ≠ [] := by
    rw [← hdec]
    exact chunksAux_ne_nil rest [s0] (by simp)
  have hbnd : List.Chain'
      (fun c d => ∀ x ∈ c.getLast?, ∀ y ∈ d.head?, isConsecutive x y = false)
      (cs1 ++ c :: cs2) := by
    rw [← hdec]
    exact chunksAux_boundary rest [s0]
  refine ⟨cs1.flatten, cs2.flatten, by simpa using hflat.symm, ?_, ?_⟩
  · intro x hx y hy
    cases hcs1 : cs1 with
    | nil =>
      rw [hcs1] at hx
      simp at hx
    | cons d ds =>
      have hcs1ne : cs1 ≠ [] := by rw [hcs1]; simp
      obtain ⟨lc, hlc⟩ : ∃ lc, cs1.getLast? = some lc := by
        rw [List.getLast?_eq_getLast cs1 hcs1ne]
        exact ⟨_, rfl⟩
      have hlcmem : lc ∈ cs1 := List.mem_of_mem_getLast? hlc
      have hlcne : lc ≠ [] := hnecs lc (List.mem_append.mpr (Or.inl hlcmem))
      have hpre : cs1.flatten.getLast? = lc.getLast? :=
        flatten_getLast? hlc (fun e he => hnecs e (List.mem_append.mpr (Or.inl he)))
      rw [hpre] at hx
      exact (List.chain'_append.mp hbnd).2.2 lc hlc c (by simp) x hx y hy
  · intro x hx y hy
    have hc2 : List.Chain'
        (fun c d => ∀ x ∈ c.getLast?, ∀ y ∈ d.head?, isConsecutive x y = false)
        (c :: cs2) := (List.chain'_append.mp hbnd).2.1
    cases hcs2 : cs2 with
    | nil =>
      rw [hcs2] at hy
      simp at hy
    | cons d ds =>
      have hdne : d ≠ [] := hnecs d (by rw [hcs2]; simp)
      have hpost : cs2.flatten.head? = d.head? := by
        rw [hcs2]
        exact flatten_head? rfl hdne
      rw [hpost] at hy
      have := (List.chain'_cons'.mp hc2).1 d (by rw [hcs2]; rfl)
      exact this x hx y hy

/-! ### The scanner on a sorted, duplicate-free numeric row -/

theorem seqGroup_start {row : String} {c : List Seat} {f : Seat}
    (hf : c.head? = some f) : (seqGroup row c).start_chair = f.chair := by
  simp [seqGroup, hf]

theorem seqGroup_end {row : String} {c : List Seat} {lst : Seat}
    (hlst : c.getLast? = some lst) : (seqGroup row c).end_chair = lst.chair := by
  simp [seqGroup, hlst]

theorem processRow_sound {m : Nat} {row : String} {ss : List Seat}
    (hpl : List.Pairwise ltChair ss)
    (hnum : ∀ s ∈ ss, (pyInt s.chair).isSome = true) :
    ∀ g ∈ processRow m row ss, m ≤ g.count ∧ g.row = row
      ∧ ∀ s ∈ ss, ¬ extendsChair s g := by
  intro g hg
  obtain ⟨s0, rest, c, hss, hcm, hclen, hgeq⟩ := processRow_mem hg
  subst hss
  have hcne : c ≠ [] := chunksAux_ne_nil rest [s0] (by simp) c hcm
  have hchain : List.Chain' consecB c :=
    chunksAux_chain rest [s0] (List.chain'_singleton s0) c hcm
  obtain ⟨pre, post, hdec, hbpre, hbpost⟩ := chunk_decomp hcm
  rw [hdec] at hpl hnum
  obtain ⟨f, hf⟩ : ∃ f, c.head? = some f := by
    cases c with
    | nil => exact absurd rfl hcne
    | cons x y => exact ⟨x, rfl⟩
  have hfmem : f ∈ pre ++ (c ++ post) :=
    List.mem_append.mpr (Or.inr (List.mem_append.mpr (Or.inl (List.mem_of_mem_head? hf))))
  obtain ⟨fv, hfv⟩ := Option.isSome_iff_exists.mp (hnum f hfmem)
  obtain ⟨lst, hlst, hlstv⟩ := chain_getLast hchain hcne hf hfv
  subst hgeq
  refine ⟨by simpa [seqGroup] using hclen, rfl, ?_⟩
  intro s hs hext
  obtain ⟨hsome, hor⟩ := hext
  rw [hdec] at hs
  rcases hor with hright | hleft
  · rw [seqGroup_end hlst, hlstv] at hright
    simp only [Option.map_some'] at hright
    exact no_right_extension hpl hnum hchain hcne hbpost hlst hs hlstv hright
  · rw [seqGroup_start hf, hfv] at hleft
    simp only [Option.map_some'] at hleft
    exact no_left_extension hpl hnum hchain hcne hbpre hf hs hfv hleft

theorem processRow_complete {m : Nat} {row : String} {ss : List Seat}
    (hpl : List.Pairwise ltChair ss)
    (hnum : ∀ s ∈ ss, (pyInt s.chair).isSome = true)
    (a : Int) (n : Nat) (hmn : m ≤ n + 1)
    (hrun : ∀ k : Nat, k ≤ n → ∃ s ∈ ss, pyInt s.chair = some (a + (k : Int))) :
    ∃ g ∈ processRow m row ss, g.row = row ∧ ∃ sv ev,
      pyInt g.start_chair = some sv ∧ pyInt g.end_chair = some ev
      ∧ sv ≤ a ∧ a + (n : Int) ≤ ev := by
  obtain ⟨xa, hxa, hxav⟩ := hrun 0 (Nat.zero_le n)
  obtain ⟨s0, rest, hss⟩ : ∃ s0 rest, ss = s0 :: rest := by
    cases ss with
    | nil => exact absurd hxa (List.not_mem_nil xa)
    | cons x y => exact ⟨x, y, rfl⟩
  subst hss
  have hxa2 : xa ∈ (chunksAux [s0] rest).flatten := by
    rw [chunksAux_flatten]
    simpa using hxa
  obtain ⟨c, hcm, hxc⟩ := List.mem_flatten.mp hxa2
  have hcne : c ≠ [] := chunksAux_ne_nil rest [s0] (by simp) c hcm
  have hchain : List.Chain' consecB c :=
    chunksAux_chain rest [s0] (List.chain'_singleton s0) c hcm
  obtain ⟨pre, post, hdec, hbpre, hbpost⟩ := chunk_decomp hcm
  rw [hdec] at hpl hnum
  obtain ⟨f, hf⟩ : ∃ f, c.head? = some f := by
    cases c with
    | nil => exact absurd rfl hcne
    | cons x y => exact ⟨x, rfl⟩
  have hfmem : f ∈ pre ++ (c ++ post) :=
    List.mem_append.mpr (Or.inr (List.mem_append.mpr (Or.inl (List.mem_of_mem_head? hf))))
  obtain ⟨fv, hfv⟩ := Option.isSome_iff_exists.mp (hnum f hfmem)
  obtain ⟨lst, hlst, hlstv⟩ := chain_getLast hchain hcne hf hfv
  -- the value of the found seat bounds the chunk around a
  obtain ⟨w, hw, hwlb, hwub⟩ := chain_mem_val hchain hf hfv xa hxc
  rw [hxav] at hw
  injection hw with hweq
  have hfa : fv ≤ a := by
    simp only [Nat.cast_zero, add_zero] at hweq
    omega
  -- the chunk reaches at least a + n
  have hcover : a + (n : Int) ≤ fv + (c.length : Int) - 1 := by
    by_contra hcon
    push_neg at hcon
    have hk1 : (0 : Int) ≤ fv + (c.length : Int) - 1 + 1 - a := by
      have hlen1 : 1 ≤ c.length := by
        have := List.length_pos.mpr hcne
        omega
      simp only [Nat.cast_zero, add_zero] at hweq
      omega
    set k : Nat := (fv + (c.length : Int) - 1 + 1 - a).toNat with hkdef
    have hkc : (k : Int) = fv + (c.length : Int) - 1 + 1 - a := Int.toNat_of_nonneg hk1
    have hkn : k ≤ n := by
      have : (k : Int) ≤ (n : Int) := by omega
      exact_mod_cast this
    obtain ⟨x1, hx1, hx1v⟩ := hrun k hkn
    rw [hdec] at hx1
    have hx1v2 : pyInt x1.chair = some ((fv + (c.length : Int) - 1) + 1) := by
      rw [hx1v]
      congr 1
      omega
    exact no_right_extension hpl hnum hchain hcne hbpost hlst hx1 hlstv hx1v2
  have hlenge : m ≤ c.length := by
    have : (n : Int) + 1 ≤ (c.length : Int) := by omega
    have h2 : n + 1 ≤ c.length := by exact_mod_cast this
    omega
  refine ⟨seqGroup row c, ?_, rfl, fv, fv + (c.length : Int) - 1, ?_, ?_, hfa, hcover⟩
  · exact processRow_mem_intro hcm hlenge
  · rw [seqGroup_start hf]
    exact hfv
  · rw [seqGroup_end hlst]
    exact hlstv

/-! ### The row dictionary: lookup and filter characterisation -/

theorem lookup_cons_self (k : String) (v : List Seat) (rest : List (String × List Seat)) :
    ((k, v) :: rest).lookup k = some v := by
  have hb : (k == k) = true := beq_self_eq_true k
  simp [List.lookup, hb]

theorem lookup_cons_ne {r k : String} (h : r ≠ k) (v : List Seat)
    (rest : List (String × List Seat)) :
    ((k, v) :: rest).lookup r = rest.lookup r := by
  have hb : (r == k) = false := beq_eq_false_iff_ne.mpr h
  simp [List.lookup, hb]

theorem addToRow_lookup : ∀ (acc : List (String × List Seat)) (s : Seat) (r : String),
    (addToRow acc s).lookup r
      = if r = s.row then some ((acc.lookup s.row).getD [] ++ [s]) else acc.lookup r := by
  intro acc
  induction acc with
  | nil =>
    intro s r
    rw [addToRow]
    by_cases hr : r = s.row
    · subst hr
      rw [if_pos rfl, lookup_cons_self]
      simp
    · rw [if_neg hr, lookup_cons_ne hr]
  | cons p rest ih =>
    intro s r
    obtain ⟨k, ss⟩ := p
    rw [addToRow]
    by_cases hk : k = s.row
    · rw [if_pos hk]
      by_cases hr : r = s.row
      · subst hr
        rw [if_pos rfl, ← hk, lookup_cons_self, lookup_cons_self]
        rfl
      · rw [if_neg hr]
        have hrk : r ≠ k := fun he => hr (he.trans hk)
        rw [lookup_cons_ne hrk, lookup_cons_ne hrk]
    · rw [if_neg hk]
      by_cases hr : r = k
      · subst hr
        rw [if_neg hk, lookup_cons_self, lookup_cons_self]
      · rw [lookup_cons_ne hr, lookup_cons_ne hr,
          lookup_cons_ne (fun he => hk he.symm), ih s r]

theorem groupByRow_lookup_aux : ∀ (l : List Seat) (acc : List (String × List Seat))
    (r : String),
    (l.foldl addToRow acc).lookup r
      = if acc.lookup r = none ∧ l.filter (fun s => decide (s.row = r)) = [] then none
        else some ((acc.lookup r).getD []
          ++ l.filter (fun s => decide (s.row = r))) := by
  intro l
  induction l with
  | nil =>
    intro acc r
    rw [List.foldl_nil, List.filter_nil]
    cases hl : acc.lookup r with
    | none => simp
    | some ss => simp
  | cons s t ih =>
    intro acc r
    rw [List.foldl_cons, ih (addToRow acc s) r]
    by_cases hr : s.row = r
    · have hlk : (addToRow acc s).lookup r
          = some ((acc.lookup s.row).getD [] ++ [s]) := by
        rw [addToRow_lookup, if_pos hr.symm]
      have hfc : (s :: t).filter (fun u => decide (u.row = r))
          = s :: t.filter (fun u => decide (u.row = r)) := by
        rw [List.filter_cons, if_pos (by simp [hr])]
      rw [hlk, hfc]
      rw [if_neg (by rintro ⟨hcon, _⟩; cases hcon)]
      rw [if_neg (by rintro ⟨_, hcon⟩; cases hcon)]
      rw [hr]
      simp [List.append_assoc]
    · have hlk : (addToRow acc s).lookup r = acc.lookup r := by
        rw [addToRow_lookup, if_neg (fun he => hr he.symm)]
      have hfc : (s :: t).filter (fun u => decide (u.row = r))
          = t.filter (fun u => decide (u.row = r)) := by
        rw [List.filter_cons, if_neg (by simp [hr])]
      rw [hlk, hfc]

theorem groupByRow_lookup (l : List Seat) (r : String) :
    (groupByRow l).lookup r
      = if l.filter (fun s => decide (s.row = r)) = [] then none
        else some (l.filter (fun s => decide (s.row = r))) := by
  rw [groupByRow, groupByRow_lookup_aux l [] r]
  simp only [List.lookup_nil, Option.getD_none, List.nil_append, true_and]

theorem addToRow_keys_mem (acc : List (String × List Seat)) (s : Seat) (r : String) :
    r ∈ (addToRow acc s).map Prod.fst ↔ r ∈ acc.map Prod.fst ∨ r = s.row := by
  induction acc with
  | nil => simp [addToRow]
  | cons p rest ih =>
    obtain ⟨k, ss⟩ := p
    rw [addToRow]
    by_cases hk : k = s.row
    · rw [if_pos hk]
      subst hk
      simp only [List.map_cons, List.mem_cons]
      constructor
      · rintro (he | hm)
        · exact Or.inl (Or.inl he)
        · exact Or.inl (Or.inr hm)
      · rintro ((he | hm) | he)
        · exact Or.inl he
        · exact Or.inr hm
        · exact Or.inl he
    · rw [if_neg hk]
      simp only [List.map_cons, List.mem_cons, ih]
      tauto

theorem addToRow_keys_nodup {acc : List (String × List Seat)} (s : Seat)
    (h : (acc.map Prod.fst).Nodup) : ((addToRow acc s).map Prod.fst).Nodup := by
  induction acc with
  | nil => simp [addToRow]
  | cons p rest ih =>
    obtain ⟨k, ss⟩ := p
    rw [List.map_cons, List.nodup_cons] at h
    rw [addToRow]
    by_cases hk : k = s.row
    · rw [if_pos hk]
      rw [List.map_cons, List.nodup_cons]
      exact h
    · rw [if_neg hk]
      rw [List.map_cons, List.nodup_cons]
      refine ⟨?_, ih h.2⟩
      rw [addToRow_keys_mem]
      rintro (hm | he)
      · exact h.1 hm
      · exact hk he

theorem groupByRow_keys_nodup (l : List Seat) :
    ((groupByRow l).map Prod.fst).Nodup := by
  rw [groupByRow]
  have haux : ∀ (acc : List (String × List Seat)), (acc.map Prod.fst).Nodup →
      ((l.foldl addToRow acc).map Prod.fst).Nodup := by
    induction l with
    | nil => intro acc h; exact h
    | cons s t ih =>
      intro acc h
      rw [List.foldl_cons]
      exact ih (addToRow acc s) (addToRow_keys_nodup s h)
  exact haux [] (by simp)

theorem assoc_lookup_of_mem : ∀ {acc : List (String × List Seat)} {r : String}
    {ss : List Seat}, (acc.map Prod.fst).Nodup → (r, ss) ∈ acc →
    acc.lookup r = some ss := by
  intro acc
  induction acc with
  | nil => intro r ss _ h; exact absurd h (List.not_mem_nil _)
  | cons p rest ih =>
    intro r ss hnd hmem
    obtain ⟨k, ss2⟩ := p
    rw [List.map_cons, List.nodup_cons] at hnd
    rcases List.mem_cons.mp hmem with he | hm
    · injection he with he1 he2
      subst he1
      subst he2
      exact lookup_cons_self r ss rest
    · have hrk : r ≠ k := by
        intro he
        subst he
        exact hnd.1 (List.mem_map.mpr ⟨(r, ss), hm, rfl⟩)
      rw [lookup_cons_ne hrk]
      exact ih hnd.2 hm

theorem lookup_mem_assoc : ∀ {acc : List (String × List Seat)} {r : String}
    {ss : List Seat}, acc.lookup r = some ss → (r, ss) ∈ acc := by
  intro acc
  induction acc with
  | nil => intro r ss h; cases h
  | cons p rest ih =>
    intro r ss h
    obtain ⟨k, ss2⟩ := p
    by_cases hrk : r = k
    · subst hrk
      rw [lookup_cons_self] at h
      injection h with he
      subst he
      exact List.mem_cons_self _ _
    · rw [lookup_cons_ne hrk] at h
      exact List.mem_cons.mpr (Or.inr (ih h))

theorem groupByRow_mem_eq {l : List Seat} {r : String} {ss : List Seat}
    (h : (r, ss) ∈ groupByRow l) :
    ss = l.filter (fun s => decide (s.row = r)) := by
  have hl := assoc_lookup_of_mem (groupByRow_keys_nodup l) h
  rw [groupByRow_lookup] at hl
  by_cases hf : l.filter (fun s => decide (s.row = r)) = []
  · rw [if_pos hf] at hl
    cases hl
  · rw [if_neg hf] at hl
    injection hl with he
    exact he.symm

theorem groupByRow_key_exists {l : List Seat} {s : Seat} (h : s ∈ l) :
    ∃ ss, (s.row, ss) ∈ groupByRow l := by
  have hne : l.filter (fun u => decide (u.row = s.row)) ≠ [] := by
    intro hcon
    have hmem : s ∈ l.filter (fun u => decide (u.row = s.row)) :=
      List.mem_filter.mpr ⟨h, by simp⟩
    rw [hcon] at hmem
    exact List.not_mem_nil s hmem
  have hlk := groupByRow_lookup l s.row
  rw [if_neg hne] at hlk
  exact ⟨_, lookup_mem_assoc hlk⟩

/-! ### The sort step and the assembly of `find_adjacent_seats` -/

theorem sortChairs_ok_perm {ss ss2 : List Seat} (h : sortChairs ss = .ok ss2) :
    ss2.Perm ss := by
  rw [sortChairs] at h
  by_cases h1 : ss.all (fun s => pyIsDigit s.chair) = true
  · rw [if_pos h1] at h
    injection h with he
    rw [← he]
    exact List.perm_insertionSort _ ss
  · rw [if_neg h1] at h
    by_cases h2 : ss.all (fun s => !pyIsDigit s.chair) = true
    · rw [if_pos h2] at h
      injection h with he
      rw [← he]
      exact List.perm_insertionSort _ ss
    · rw [if_neg h2] at h
      cases h

theorem sortChairs_digit {ss : List Seat} (hd : ∀ s ∈ ss, pyIsDigit s.chair = true) :
    sortChairs ss
      = .ok (ss.insertionSort (fun a b => chairValI a ≤ chairValI b)) := by
  rw [sortChairs, if_pos (List.all_eq_true.mpr hd)]

theorem sorted_insertion_pairwise_lt {ss : List Seat}
    (hnd : List.Pairwise (fun a b => chairValI a ≠ chairValI b) ss) :
    List.Pairwise ltChair (ss.insertionSort (fun a b => chairValI a ≤ chairValI b)) := by
  haveI : IsTotal Seat (fun a b => chairValI a ≤ chairValI b) := ⟨fun a b => le_total _ _⟩
  haveI : IsTrans Seat (fun a b => chairValI a ≤ chairValI b) :=
    ⟨fun a b c hab hbc => le_trans hab hbc⟩
  have hs : List.Sorted (fun a b => chairValI a ≤ chairValI b)
      (ss.insertionSort (fun a b => chairValI a ≤ chairValI b)) :=
    List.sorted_insertionSort _ ss
  have hperm := List.perm_insertionSort (fun a b => chairValI a ≤ chairValI b) ss
  have hnd2 : List.Pairwise (fun a b => chairValI a ≠ chairValI b)
      (ss.insertionSort (fun a b => chairValI a ≤ chairValI b)) :=
    (hperm.pairwise_iff (fun h => Ne.symm h)).mpr hnd
  exact List.Pairwise.imp (fun hab => lt_of_le_of_ne hab.1 hab.2) (hs.and hnd2)

theorem sortRows_mem_right : ∀ {rows srows : List (String × List Seat)},
    sortRows rows = .ok srows →
    ∀ q ∈ srows, ∃ ss, (q.1, ss) ∈ rows ∧ sortChairs ss = .ok q.2 := by
  intro rows
  induction rows with
  | nil =>
    intro srows h q hq
    rw [sortRows] at h
    injection h with he
    subst he
    exact absurd hq (List.not_mem_nil q)
  | cons p rest ih =>
    intro srows h q hq
    obtain ⟨r, ss⟩ := p
    rw [sortRows] at h
    cases hs1 : sortChairs ss with
    | error e =>
      rw [hs1] at h
      exact absurd h (fun hcon => Except.noConfusion hcon)
    | ok ss1 =>
      rw [hs1] at h
      have h2 : (do
          let rest1 ← sortRows rest
          Except.ok ((r, ss1) :: rest1) : Except String (List (String × List Seat)))
          = .ok srows := h
      cases hs2 : sortRows rest with
      | error e =>
        rw [hs2] at h2
        exact absurd h2 (fun hcon => Except.noConfusion hcon)
      | ok rest1 =>
        rw [hs2] at h2
        have h3 := Except.ok.inj h2
        subst h3
        rcases List.mem_cons.mp hq with hq1 | hq2
        · subst hq1
          exact ⟨ss, List.mem_cons_self _ _, hs1⟩
        · obtain ⟨ss3, hmem, hok⟩ := ih hs2 q hq2
          exact ⟨ss3, List.mem_cons.mpr (Or.inr hmem), hok⟩

theorem sortRows_mem_left : ∀ {rows srows : List (String × List Seat)},
    sortRows rows = .ok srows →
    ∀ {r : String} {ss : List Seat}, (r, ss) ∈ rows →
    ∃ ss2, sortChairs ss = .ok ss2 ∧ (r, ss2) ∈ srows := by
  intro rows
  induction rows with
  | nil =>
    intro srows _ r ss hmem
    exact absurd hmem (List.not_mem_nil _)
  | cons p rest ih =>
    intro srows h r ss hmem
    obtain ⟨k, kss⟩ := p
    rw [sortRows] at h
    cases hs1 : sortChairs kss with
    | error e =>
      rw [hs1] at h
      exact absurd h (fun hcon => Except.noConfusion hcon)
    | ok ss1 =>
      rw [hs1] at h
      have h2 : (do
          let rest1 ← sortRows rest
          Except.ok ((k, ss1) :: rest1) : Except String (List (String × List Seat)))
          = .ok srows := h
      cases hs2 : sortRows rest with
      | error e =>
        rw [hs2] at h2
        exact absurd h2 (fun hcon => Except.noConfusion hcon)
      | ok rest1 =>
        rw [hs2] at h2
        have h3 := Except.ok.inj h2
        subst h3
        rcases List.mem_cons.mp hmem with he | hm
        · injection he with he1 he2
          subst he1
          subst he2
          exact ⟨ss1, hs1, List.mem_cons_self _ _⟩
        · obtain ⟨ss2, hok, hmem2⟩ := ih hs2 hm
          exact ⟨ss2, hok, List.mem_cons.mpr (Or.inr hmem2)⟩

theorem sortRows_ok_of : ∀ {rows : List (String × List Seat)},
    (∀ p ∈ rows, ∃ ss2, sortChairs p.2 = .ok ss2) →
    ∃ srows, sortRows rows = .ok srows := by
  intro rows
  induction rows with
  | nil => intro _; exact ⟨[], rfl⟩
  | cons p rest ih =>
    intro h
    obtain ⟨r, ss⟩ := p
    obtain ⟨ss2, hss2⟩ := h (r, ss) (List.mem_cons_self _ _)
    obtain ⟨srest, hsrest⟩ := ih (fun q hq => h q (List.mem_cons.mpr (Or.inr hq)))
    refine ⟨(r, ss2) :: srest, ?_⟩
    rw [sortRows, hss2]
    show (do
        let rest1 ← sortRows rest
        Except.ok ((r, ss2) :: rest1) : Except String (List (String × List Seat)))
      = .ok ((r, ss2) :: srest)
    rw [hsrest]
    rfl

theorem find_ok_elim {seats : List Seat} {m : Nat} {mr : Option Int}
    {groups : List Group}
    (h : find_adjacent_seats seats m mr = .ok groups) :
    ∃ fs srows, ceilingFilter seats mr = .ok fs
      ∧ sortRows (groupByRow fs) = .ok srows
      ∧ groups = srows.foldl (fun acc rs => acc ++ processRow m rs.1 rs.2) [] := by
  rw [find_adjacent_seats] at h
  cases hc : ceilingFilter seats mr with
  | error e =>
    rw [hc] at h
    exact absurd h (fun hcon => Except.noConfusion hcon)
  | ok fs =>
    rw [hc] at h
    have h2 : (do
        let srows ← sortRows (groupByRow fs)
        Except.ok (srows.foldl (fun acc rs => acc ++ processRow m rs.1 rs.2)
          ([] : List Group)) : Except String (List Group)) = .ok groups := h
    cases hs : sortRows (groupByRow fs) with
    | error e =>
      rw [hs] at h2
      exact absurd h2 (fun hcon => Except.noConfusion hcon)
    | ok srows =>
      rw [hs] at h2
      exact ⟨fs, srows, rfl, hs, (Except.ok.inj h2).symm⟩

theorem find_ok_intro {seats : List Seat} {m : Nat} {mr : Option Int}
    {fs : List Seat} {srows : List (String × List Seat)}
    (hc : ceilingFilter seats mr = .ok fs)
    (hs : sortRows (groupByRow fs) = .ok srows) :
    find_adjacent_seats seats m mr
      = .ok (srows.foldl (fun acc rs => acc ++ processRow m rs.1 rs.2) []) := by
  rw [find_adjacent_seats, hc]
  show (do
      let srows2 ← sortRows (groupByRow fs)
      Except.ok (srows2.foldl (fun acc rs => acc ++ processRow m rs.1 rs.2)
        ([] : List Group)) : Except String (List Group))
    = .ok (srows.foldl (fun acc rs => acc ++ processRow m rs.1 rs.2) [])
  rw [hs]
  rfl

theorem ceilingFilter_ok_sub {seats fs : List Seat} {mr : Option Int}
    (h : ceilingFilter seats mr = .ok fs) :
    ∀ s ∈ fs, s ∈ seats := by
  cases mr with
  | none =>
    injection h with he
    subst he
    exact fun s hs => hs
  | some m =>
    rw [ceilingFilter] at h
    by_cases hall : seats.all (fun s => (pyInt s.row).isSome) = true
    · rw [if_pos hall] at h
      injection h with he
      subst he
      exact fun s hs => List.mem_of_mem_filter hs
    · rw [if_neg hall] at h
      cases h

theorem ceilingFilter_ok_retained {seats : List Seat} {mr : Option Int}
    (h2 : ∀ s ∈ seats, mr = none ∨ (pyInt s.row).isSome = true) :
    ceilingFilter seats mr = .ok (retainedSeats seats mr) := by
  cases mr with
  | none => rfl
  | some m =>
    have hall : seats.all (fun s => (pyInt s.row).isSome) = true := by
      rw [List.all_eq_true]
      intro s hs
      rcases h2 s hs with hnone | hsome
      · cases hnone
      · simpa using hsome
    rw [ceilingFilter, if_pos hall]
    rw [show retainedSeats seats (some m)
        = seats.filter (fun s => match pyInt s.row with
            | some v => decide (v ≤ m)
            | none => false) from rfl]
    congr 1
    apply List.filter_congr
    intro s hs
    obtain ⟨v, hv⟩ := Option.isSome_iff_exists.mp (by
      simpa using List.all_eq_true.mp hall s hs)
    rw [hv]
    simp

theorem retainedSeats_sub {seats : List Seat} {mr : Option Int} :
    ∀ s ∈ retainedSeats seats mr, s ∈ seats := by
  cases mr with
  | none => exact fun s hs => hs
  | some m => exact fun s hs => List.mem_of_mem_filter hs

theorem foldl_append_processRow (m : Nat) :
    ∀ (l : List (String × List Seat)) (acc : List Group),
      l.foldl (fun acc2 rs => acc2 ++ processRow m rs.1 rs.2) acc
        = acc ++ (l.map (fun rs => processRow m rs.1 rs.2)).flatten := by
  intro l
  induction l with
  | nil => intro acc; simp
  | cons p rest ih =>
    intro acc
    rw [List.foldl_cons, ih]
    simp [List.append_assoc]

/-! ## Claim C3 — the group differ -/

/-- C3: `_compare_groups` returns exactly the groups of the current
list whose `(row, start_chair, end_chair)` triple does not occur in the
previous list, in the current list's order; consequently
`diff(A, A) = []`, `diff([], B) = B`, no returned group's triple occurs
in the previous list, and a group whose count changed but whose triple
is unchanged is never reported as new. -/
theorem C3_compare_groups_exact (A B : List Group) :
    compareGroups A B = B.filter (fun g => !((A.map tripleOf).contains (tripleOf g)))
    ∧ compareGroups A A = []
    ∧ compareGroups [] B = B
    ∧ (∀ g ∈ compareGroups A B, tripleOf g ∉ A.map tripleOf)
    ∧ (∀ g ∈ B, tripleOf g ∈ A.map tripleOf → g ∉ compareGroups A B) := by
  refine ⟨rfl, ?_, ?_, ?_, ?_⟩
  · rw [compareGroups, List.filter_eq_nil_iff]
    intro g hg
    simp only [Bool.not_eq_true', Bool.not_eq_true]
    have : (List.map tripleOf A).contains (tripleOf g) = true := by
      simpa using List.mem_map_of_mem tripleOf hg
    rw [this]
    simp
  · simp [compareGroups]
  · intro g hg
    rw [compareGroups, List.mem_filter] at hg
    have h2 := hg.2
    rw [Bool.not_eq_true'] at h2
    intro hmem
    have : (List.map tripleOf A).contains (tripleOf g) = true := by simpa using hmem
    rw [this] at h2
    cases h2
  · intro g hg hmem hcontra
    rw [compareGroups, List.mem_filter] at hcontra
    have h2 := hcontra.2
    rw [Bool.not_eq_true'] at h2
    have : (List.map tripleOf A).contains (tripleOf g) = true := by simpa using hmem
    rw [this] at h2
    cases h2

/-- C3 witness: concrete instances of the self-diff and of a group
whose count changed but whose boundaries did not. -/
theorem C3_compare_groups_exact_witness :
    compareGroups [⟨"5", "1", "2", 2⟩] [⟨"5", "1", "2", 2⟩] = []
    ∧ (⟨"5", "1", "2", 3⟩ : Group)
        ∉ compareGroups [⟨"5", "1", "2", 2⟩] [⟨"5", "1", "2", 3⟩, ⟨"5", "4", "6", 3⟩] :=
  ⟨(C3_compare_groups_exact [⟨"5", "1", "2", 2⟩] [⟨"5", "1", "2", 2⟩]).2.1,
   (C3_compare_groups_exact [⟨"5", "1", "2", 2⟩]
      [⟨"5", "1", "2", 3⟩, ⟨"5", "4", "6", 3⟩]).2.2.2.2
      ⟨"5", "1", "2", 3⟩ (by decide) (by decide)⟩

/-! ## Claim C8 — the store's load never fails -/

/-- C8: `load_db` never propagates a failure: a missing file yields the
empty mapping with nothing logged and nothing deleted; any other read
or parse failure is logged, the corrupt file is deleted, and the empty
mapping is returned instead of an exception. -/
theorem C8_load_db_never_fails :
    load_db .absent = ⟨[], false, false⟩ ∧ load_db .failure = ⟨[], true, true⟩ :=
  ⟨rfl, rfl⟩

/-! ## Claim C4 — the per-row chair sort -/

/-- C4: evaluation at the failing input.  The sort key
`int(s.chair) if s.chair.isdigit() else s.chair` was meant to let
non-numeric chair labels sort after numeric ones, but in Python 3 a row
mixing a digit chair label with a non-digit one makes the sort compare
an `int` with a `str` and raise `TypeError`, which propagates out of
`find_adjacent_seats`. -/
theorem C4_sort_mixed_row_raises :
    sortChairs mixedSeats = .error "TypeError"
    ∧ find_adjacent_seats mixedSeats 2 none = .error "TypeError" :=
  ⟨rfl, rfl⟩

/-! ## Claim C2 — the row ceiling filter -/

/-- C2 counterexample: with a non-numeric row label present, the claim
says the filter succeeds, retains that seat and still drops numeric
rows above the ceiling; the code instead aborts the whole comprehension
and the warning handler raises `NameError`, so nothing is filtered and
nothing is returned. -/
theorem C2_ceiling_counterexample :
    ceilingFilter nonNumRowSeats (some 4) = .error "NameError"
    ∧ (Except.error "NameError" : Except String (List Seat)) ≠ .ok [avail "A" "1"] :=
  ⟨rfl, fun h => Except.noConfusion h⟩

/-- C2 amended: when the ceiling is present and every seat's row label
parses as an integer, the filter succeeds and drops exactly the seats
whose row exceeds the ceiling; when any seat's row label does not
parse, the whole filter raises (`NameError` from the warning handler)
instead of retaining that seat. -/
theorem C2_ceiling_amended (seats : List Seat) (m : Int) :
    ((∀ s ∈ seats, (pyInt s.row).isSome = true) →
      ceilingFilter seats (some m)
        = .ok (seats.filter (fun s => (pyInt s.row).getD 0 ≤ m)))
    ∧ ((∃ s ∈ seats, pyInt s.row = none) →
      ceilingFilter seats (some m) = .error "NameError") := by
  constructor
  · intro h
    have hc : seats.all (fun s => (pyInt s.row).isSome) = true := by
      rw [List.all_eq_true]; intro s hs; simpa using h s hs
    simp [ceilingFilter, hc]
  · rintro ⟨s, hs, hnone⟩
    have hc : seats.all (fun s => (pyInt s.row).isSome) = false := by
      rw [Bool.eq_false_iff]
      intro hall
      rw [List.all_eq_true] at hall
      have := hall s hs
      rw [hnone] at this
      simp at this
    simp [ceilingFilter, hc]

/-- C2 witness: the amended filter at a fully numeric input and at an
input with a non-numeric row label. -/
theorem C2_ceiling_amended_witness :
    ceilingFilter goodSeats (some 4)
      = .ok (goodSeats.filter (fun s => (pyInt s.row).getD 0 ≤ 4))
    ∧ ceilingFilter nonNumRowSeats (some 4) = .error "NameError" :=
  ⟨(C2_ceiling_amended goodSeats 4).1 (by decide),
   (C2_ceiling_amended nonNumRowSeats 4).2 ⟨avail "A" "1", by decide, by decide⟩⟩

/-! ## Claim C6 — exceptions in the monitoring loop -/

/-- C6 counterexample: the `try/except` wraps the whole `while` loop,
so an exception raised inside one tick's body (here a `TypeError` from
grouping) ends the loop: the loop exits with a crash — neither a
cancellation nor a key removal — and the following tick, which would
have succeeded and produced a notification, is never processed. -/
theorem C6_monitor_counterexample :
    monitor_show 2 ⟨[], none⟩ [.fetched mixedSeats, .fetched goodSeats]
      = (⟨[], none⟩, [], .crashed "TypeError")
    ∧ ExitReason.crashed "TypeError" ≠ .keyRemoved
    ∧ tick 2 ⟨[], none⟩ goodSeats
      = .ok (⟨[⟨"5", "1", "2", 2⟩], none⟩, true, some ⟨[⟨"5", "1", "2", 2⟩], 1⟩) :=
  ⟨rfl, by decide, rfl⟩

/-- C6 amended: an uncaught exception inside the body of a single
monitoring tick is logged and terminates the subscription's monitoring
loop; later ticks are not processed (the loop otherwise exits on
cancellation or on removal of its key from the store). -/
theorem C6_monitor_amended (min_seats : Nat) (st : MonState) (seats : List Seat)
    (rest : List TickEvent) (e : String)
    (h : tick min_seats st seats = .error e) :
    monitor_show min_seats st (.fetched seats :: rest) = (st, [], .crashed e) := by
  simp [monitor_show, h]

/-- C6 witness: the amended loop behaviour at the concrete crashing
schedule. -/
theorem C6_monitor_amended_witness :
    monitor_show 2 ⟨[], none⟩ [.fetched mixedSeats, .fetched goodSeats]
      = (⟨[], none⟩, [], .crashed "TypeError") :=
  C6_monitor_amended 2 ⟨[], none⟩ mixedSeats [.fetched goodSeats] "TypeError" rfl

/-! ## Claim C7 — per-tick state update and persistence -/

/-- C7 counterexample: on a tick whose fetch yields an empty seat list
the tick body is skipped entirely (`if available_seats:`), so the
stored groups are not overwritten with the tick's grouping (which would
be the empty list) and `save_db` is not invoked, contrary to the
claim's "after every monitoring tick". -/
theorem C7_tick_counterexample :
    tick 2 ⟨[⟨"5", "1", "2", 2⟩], none⟩ []
      = .ok (⟨[⟨"5", "1", "2", 2⟩], none⟩, false, none)
    ∧ find_adjacent_seats [] 2 none = .ok []
    ∧ ¬ ((⟨[⟨"5", "1", "2", 2⟩], none⟩ : MonState).last_available_groups = []
         ∧ (false : Bool) = true) :=
  ⟨rfl, rfl, by decide⟩

/-- C7 amended: on a tick whose fetch yields a non-empty seat list and
whose grouping succeeds, the stored groups are overwritten with the
full current grouping, `save_db` is invoked, and a notification is
produced exactly when the diff is nonempty; on a tick with an empty
seat list nothing is updated, nothing is saved and nothing is sent. -/
theorem C7_tick_amended (min_seats : Nat) (st : MonState) (seats : List Seat) :
    tick min_seats st [] = .ok (st, false, none)
    ∧ (∀ st1 saved notif, seats ≠ [] →
        tick min_seats st seats = .ok (st1, saved, notif) →
        ∃ groups, find_adjacent_seats seats min_seats st.max_row = .ok groups
          ∧ st1.last_available_groups = groups
          ∧ st1.max_row = st.max_row
          ∧ saved = true
          ∧ (notif = none ↔ compareGroups st.last_available_groups groups = [])) := by
  constructor
  · rfl
  · intro st1 saved notif hne htick
    rw [tick, if_neg (by simpa using hne)] at htick
    cases hfind : find_adjacent_seats seats min_seats st.max_row with
    | error e =>
      rw [hfind] at htick
      exact absurd htick (by intro h; exact Except.noConfusion h)
    | ok groups =>
      rw [hfind] at htick
      have h3 : ((⟨groups, st.max_row⟩ : MonState), true,
          (if (compareGroups st.last_available_groups groups).isEmpty then (none : Option Notif)
           else some ⟨compareGroups st.last_available_groups groups, groups.length⟩))
          = (st1, saved, notif) := Except.ok.inj htick
      injection h3 with hst h4
      injection h4 with hsaved hnotif
      subst hst
      subst hsaved
      subst hnotif
      refine ⟨groups, rfl, rfl, rfl, rfl, ?_⟩
      by_cases hempty : (compareGroups st.last_available_groups groups).isEmpty = true
      · simp [hempty, List.isEmpty_iff.mp hempty]
      · rw [Bool.not_eq_true] at hempty
        constructor
        · intro h
          rw [if_neg (by simp [hempty])] at h
          exact absurd h (by simp)
        · intro hnil
          rw [hnil] at hempty
          simp at hempty

/-- C7 witness: the amended tick behaviour at a concrete subscription
state, for the empty fetch and for a successful non-empty fetch. -/
theorem C7_tick_amended_witness :
    tick 2 (⟨[], none⟩ : MonState) [] = .ok (⟨[], none⟩, false, none)
    ∧ ∃ groups, find_adjacent_seats goodSeats 2 (⟨[], none⟩ : MonState).max_row = .ok groups
        ∧ (⟨[⟨"5", "1", "2", 2⟩], none⟩ : MonState).last_available_groups = groups
        ∧ (⟨[⟨"5", "1", "2", 2⟩], none⟩ : MonState).max_row = (⟨[], none⟩ : MonState).max_row
        ∧ (true : Bool) = true
        ∧ ((some ⟨[⟨"5", "1", "2", 2⟩], 1⟩ : Option Notif) = none
            ↔ compareGroups (⟨[], none⟩ : MonState).last_available_groups groups = []) :=
  ⟨(C7_tick_amended 2 ⟨[], none⟩ goodSeats).1,
   (C7_tick_amended 2 ⟨[], none⟩ goodSeats).2
     ⟨[⟨"5", "1", "2", 2⟩], none⟩ true (some ⟨[⟨"5", "1", "2", 2⟩], 1⟩)
     (by decide) rfl⟩

/-! ## Claim C9 — store round-trip -/

/-- C9: evaluation at the failing input.  Saving a record whose
`max_row` is absent writes the TOML string `"None"` (the toml encoder's
string fallback for `None`), so loading it back yields a record whose
`max_row` is the string `"None"` instead of `None`: the round-trip is
not the identity on records with an absent row ceiling. -/
theorem C9_store_roundtrip_fails :
    load_db (.content (save_db [("1_7", showC9)]))
      = ⟨[("1_7", { showC9 with max_row := some (.inr "None") })], false, false⟩
    ∧ [("1_7", { showC9 with max_row := some (Sum.inr "None") })] ≠ [("1_7", showC9)] :=
  ⟨rfl, by decide⟩


/-! ## Claim C1 — maximality and completeness of the grouper -/

/-- C1 counterexample: with duplicate chair labels in a row the claim
fails.  On a row holding chairs `1`, `1`, `2` with `min_seats = 1` the
scanner closes a first sequence `[1]` at the duplicate (since
`int("1") ≠ int("1") + 1`), emitting a group ending at chair `1`; the
retained available seat with chair `2` has the consecutive integer
value `int("1") + 1`, so the emitted group is not maximal. -/
theorem C1_maximality_counterexample :
    find_adjacent_seats dupSeats 1 none
      = .ok [⟨"1", "1", "1", 1⟩, ⟨"1", "1", "2", 2⟩]
    ∧ (⟨"1", "1", "1", 1⟩ : Group) ∈ [(⟨"1", "1", "1", 1⟩ : Group), ⟨"1", "1", "2", 2⟩]
    ∧ avail "1" "2" ∈ retainedSeats dupSeats none
    ∧ extendsGroup (avail "1" "2") ⟨"1", "1", "1", 1⟩ :=
  ⟨by rfl, by decide, by decide, ⟨rfl, by decide, Or.inl (by decide)⟩⟩

/-- C1 amended: when every chair label is numeric, the rows are
compatible with the ceiling (absent, or all rows numeric), and no two
retained seats of one row share a chair value, `find_adjacent_seats`
succeeds and the claim holds: every emitted group has
`count ≥ min_seats` and is maximal — no retained seat's chair value is
one past its end or one before its start within its row — and every
arithmetic run of retained chairs of length `≥ min_seats` in one row is
covered by some emitted group. -/
theorem C1_grouper_amended (seats : List Seat) (min_seats : Nat) (max_row : Option Int)
    (hmin : 1 ≤ min_seats)
    (h1 : ∀ s ∈ seats, pyIsDigit s.chair = true)
    (h2 : ∀ s ∈ seats, max_row = none ∨ (pyInt s.row).isSome = true)
    (h3 : List.Pairwise (fun s t => s.row = t.row → chairValI s ≠ chairValI t)
      (retainedSeats seats max_row)) :
    ∃ groups, find_adjacent_seats seats min_seats max_row = .ok groups
      ∧ (∀ g ∈ groups, min_seats ≤ g.count
          ∧ ∀ s ∈ retainedSeats seats max_row, ¬ extendsGroup s g)
      ∧ ∀ (r : String) (a : Int) (n : Nat), min_seats ≤ n + 1 →
          (∀ k : Nat, k ≤ n → ∃ s ∈ retainedSeats seats max_row,
            s.row = r ∧ pyInt s.chair = some (a + (k : Int))) →
          ∃ g ∈ groups, g.row = r ∧ ∃ sv ev,
            pyInt g.start_chair = some sv ∧ pyInt g.end_chair = some ev
            ∧ sv ≤ a ∧ a + (n : Int) ≤ ev := by
  have hcf : ceilingFilter seats max_row = .ok (retainedSeats seats max_row) :=
    ceilingFilter_ok_retained h2
  have hRsub : ∀ s ∈ retainedSeats seats max_row, s ∈ seats := retainedSeats_sub
  have hRdig : ∀ s ∈ retainedSeats seats max_row, pyIsDigit s.chair = true :=
    fun s hs => h1 s (hRsub s hs)
  have hsortable : ∀ p ∈ groupByRow (retainedSeats seats max_row),
      ∃ ss2, sortChairs p.2 = .ok ss2 := by
    rintro ⟨r, ss⟩ hp
    refine ⟨ss.insertionSort (fun a b => chairValI a ≤ chairValI b), sortChairs_digit ?_⟩
    intro s hs
    apply hRdig
    rw [groupByRow_mem_eq hp] at hs
    exact List.mem_of_mem_filter hs
  obtain ⟨srows, hsrows⟩ := sortRows_ok_of hsortable
  have hrowfacts : ∀ {r : String} {ss2 : List Seat}, (r, ss2) ∈ srows →
      List.Pairwise ltChair ss2
      ∧ (∀ s ∈ ss2, (pyInt s.chair).isSome = true)
      ∧ (∀ s ∈ retainedSeats seats max_row, s.row = r → s ∈ ss2) := by
    intro r ss2 hq
    obtain ⟨ss, hmemrow, hok⟩ := sortRows_mem_right hsrows (r, ss2) hq
    have hssf := groupByRow_mem_eq hmemrow
    have hssub : ∀ s ∈ ss, s ∈ retainedSeats seats max_row := by
      intro s hs
      rw [hssf] at hs
      exact List.mem_of_mem_filter hs
    have hdig : ∀ s ∈ ss, pyIsDigit s.chair = true := fun s hs => hRdig s (hssub s hs)
    have hss2 : ss2 = ss.insertionSort (fun a b => chairValI a ≤ chairValI b) :=
      (Except.ok.inj ((sortChairs_digit hdig).symm.trans hok)).symm
    have hmemiff : ∀ s : Seat, s ∈ ss2 ↔ s ∈ ss := by
      intro s
      rw [hss2]
      exact (List.perm_insertionSort _ ss).mem_iff
    have hndss : List.Pairwise (fun a b => chairValI a ≠ chairValI b) ss := by
      have hsubl : List.Sublist ss (retainedSeats seats max_row) := by
        rw [hssf]
        exact List.filter_sublist _
      refine (h3.sublist hsubl).imp_of_mem ?_
      intro a b ha hb hab
      apply hab
      rw [hssf] at ha hb
      have hra : a.row = r := of_decide_eq_true (List.mem_filter.mp ha).2
      have hrb : b.row = r := of_decide_eq_true (List.mem_filter.mp hb).2
      rw [hra, hrb]
    have hnd2 := sorted_insertion_pairwise_lt hndss
    rw [← hss2] at hnd2
    refine ⟨hnd2, ?_, ?_⟩
    · intro s hs
      exact pyInt_isSome_of_isDigit (hdig s ((hmemiff s).mp hs))
    · intro s hsR hsrow
      refine (hmemiff s).mpr ?_
      rw [hssf]
      exact List.mem_filter.mpr ⟨hsR, decide_eq_true hsrow⟩
  refine ⟨srows.foldl (fun acc rs => acc ++ processRow min_seats rs.1 rs.2) [],
    find_ok_intro hcf hsrows, ?_, ?_⟩
  · intro g hg
    rw [foldl_append_processRow, List.nil_append] at hg
    obtain ⟨l, hl, hgl⟩ := List.mem_flatten.mp hg
    obtain ⟨⟨r, ss2⟩, hq, hfq⟩ := List.mem_map.mp hl
    have hgl2 : g ∈ processRow min_seats r ss2 := by rw [← hfq] at hgl; exact hgl
    obtain ⟨hpl2, hnum2, hclosed⟩ := hrowfacts hq
    obtain ⟨hcount, hrow, hnext⟩ := processRow_sound hpl2 hnum2 g hgl2
    refine ⟨hcount, ?_⟩
    intro s hsR hext
    obtain ⟨hsrow, hchair⟩ := hext
    exact hnext s (hclosed s hsR (by rw [hsrow]; exact hrow)) hchair
  · intro r a n hmn hrun
    obtain ⟨s0, hs0R, hs0row, hs0v⟩ := hrun 0 (Nat.zero_le n)
    obtain ⟨ss, hmemrow⟩ := groupByRow_key_exists hs0R
    rw [hs0row] at hmemrow
    obtain ⟨ss2, hok, hq⟩ := sortRows_mem_left hsrows hmemrow
    obtain ⟨hpl2, hnum2, hclosed⟩ := hrowfacts hq
    have hrun2 : ∀ k : Nat, k ≤ n → ∃ s ∈ ss2, pyInt s.chair = some (a + (k : Int)) := by
      intro k hk
      obtain ⟨s, hsR, hsrow2, hsv⟩ := hrun k hk
      exact ⟨s, hclosed s hsR hsrow2, hsv⟩
    obtain ⟨g, hg, hgrow, sv, ev, hsv, hev, hsa, hae⟩ :=
      @processRow_complete min_seats r ss2 hpl2 hnum2 a n hmn hrun2
    refine ⟨g, ?_, hgrow, sv, ev, hsv, hev, hsa, hae⟩
    rw [foldl_append_processRow, List.nil_append]
    refine List.mem_flatten.mpr ⟨processRow min_seats r ss2, ?_, hg⟩
    exact List.mem_map_of_mem (fun rs => processRow min_seats rs.1 rs.2) hq

/-- C1 witness: the amended grouper on two adjacent numeric seats in
one row with `min_seats = 2` and no ceiling. -/
theorem C1_grouper_amended_witness :
    ∃ groups, find_adjacent_seats goodSeats 2 none = .ok groups
      ∧ (∀ g ∈ groups, 2 ≤ g.count
          ∧ ∀ s ∈ retainedSeats goodSeats none, ¬ extendsGroup s g)
      ∧ ∀ (r : String) (a : Int) (n : Nat), 2 ≤ n + 1 →
          (∀ k : Nat, k ≤ n → ∃ s ∈ retainedSeats goodSeats none,
            s.row = r ∧ pyInt s.chair = some (a + (k : Int))) →
          ∃ g ∈ groups, g.row = r ∧ ∃ sv ev,
            pyInt g.start_chair = some sv ∧ pyInt g.end_chair = some ev
            ∧ sv ≤ a ∧ a + (n : Int) ≤ ev :=
  C1_grouper_amended goodSeats 2 none (by decide) (by decide) (by decide) (by decide)

/-! ## Claim C10 — internal consistency of emitted groups -/

/-- C10: every group emitted by a successful run of
`find_adjacent_seats` comes from a nonempty run of input seats, all on
the group's row; its `start_chair` and `end_chair` are the chair labels
of the run's first and last seats (hence of seats present in the
input), its `count` is the run's length, and when `count ≥ 2` every
chair in the run is numeric and
`int(end_chair) = int(start_chair) + count - 1`. -/
theorem C10_group_invariants (seats : List Seat) (min_seats : Nat) (max_row : Option Int)
    (groups : List Group)
    (h : find_adjacent_seats seats min_seats max_row = .ok groups) :
    ∀ g ∈ groups, ∃ run : List Seat, run ≠ []
      ∧ (∀ s ∈ run, s.row = g.row ∧ s ∈ seats)
      ∧ (run.head?).map Seat.chair = some g.start_chair
      ∧ (run.getLast?).map Seat.chair = some g.end_chair
      ∧ g.count = run.length
      ∧ (2 ≤ g.count →
          (∀ s ∈ run, (pyInt s.chair).isSome = true)
          ∧ pyInt g.end_chair
            = (pyInt g.start_chair).map (fun v => v + (g.count : Int) - 1)) := by
  intro g hg
  obtain ⟨fs, srows, hc, hs, hgroups⟩ := find_ok_elim h
  subst hgroups
  rw [foldl_append_processRow, List.nil_append] at hg
  obtain ⟨l, hl, hgl⟩ := List.mem_flatten.mp hg
  obtain ⟨⟨r, ss2⟩, hq, hfq⟩ := List.mem_map.mp hl
  have hgl2 : g ∈ processRow min_seats r ss2 := by rw [← hfq] at hgl; exact hgl
  obtain ⟨ss, hmemrow, hok⟩ := sortRows_mem_right hs (r, ss2) hq
  have hssf := groupByRow_mem_eq hmemrow
  have hsub2 : ∀ s ∈ ss2, s.row = r ∧ s ∈ seats := by
    intro s hs2
    have hsss : s ∈ ss := ((sortChairs_ok_perm hok).mem_iff).mp hs2
    rw [hssf] at hsss
    have h5 := List.mem_filter.mp hsss
    exact ⟨of_decide_eq_true h5.2, ceilingFilter_ok_sub hc s h5.1⟩
  obtain ⟨s0, rest, c, hss2eq, hcm, hclen, hgeq⟩ := processRow_mem hgl2
  have hcne : c ≠ [] := chunksAux_ne_nil rest [s0] (by simp) c hcm
  have hchain : List.Chain' consecB c :=
    chunksAux_chain rest [s0] (List.chain'_singleton s0) c hcm
  have hcsub : ∀ s ∈ c, s ∈ ss2 := by
    intro s hsc
    have hsf : s ∈ (chunksAux [s0] rest).flatten := List.mem_flatten.mpr ⟨c, hcm, hsc⟩
    rw [chunksAux_flatten] at hsf
    rw [hss2eq]
    simpa using hsf
  obtain ⟨f, hf⟩ : ∃ f, c.head? = some f := by
    cases c with
    | nil => exact absurd rfl hcne
    | cons x y => exact ⟨x, rfl⟩
  obtain ⟨lst, hlst⟩ : ∃ lst, c.getLast? = some lst := by
    cases hgl3 : c.getLast? with
    | none => exact absurd (List.getLast?_eq_none_iff.mp hgl3) hcne
    | some x => exact ⟨x, rfl⟩
  subst hgeq
  refine ⟨c, hcne, ?_, ?_, ?_, rfl, ?_⟩
  · intro s hsc
    have h6 := hsub2 s (hcsub s hsc)
    exact ⟨h6.1.trans rfl, h6.2⟩
  · rw [hf, seqGroup_start hf]
    simp
  · rw [hlst, seqGroup_end hlst]
    simp
  · intro h2c
    have h2len : 2 ≤ c.length := h2c
    obtain ⟨f2, fv, hf2, hfv2⟩ := chain_numeric_of_two hchain h2len
    rw [hf] at hf2
    injection hf2 with hfe
    subst hfe
    have hnumc : ∀ s ∈ c, (pyInt s.chair).isSome = true := by
      intro s hsc
      obtain ⟨w, hw, _, _⟩ := chain_mem_val hchain hf hfv2 s hsc
      rw [hw]
      rfl
    refine ⟨hnumc, ?_⟩
    obtain ⟨lst2, hlst2, hlstv⟩ := chain_getLast hchain hcne hf hfv2
    rw [seqGroup_start hf, seqGroup_end hlst2, hfv2, hlstv]
    simp only [Option.map_some']
    rfl

/-- C10 witness: the invariants instantiated at the single group the
grouper emits for two adjacent numeric seats in one row. -/
theorem C10_group_invariants_witness :
    ∃ run : List Seat, run ≠ []
      ∧ (∀ s ∈ run, s.row = "5" ∧ s ∈ goodSeats)
      ∧ (run.head?).map Seat.chair = some "1"
      ∧ (run.getLast?).map Seat.chair = some "2"
      ∧ 2 = run.length
      ∧ (2 ≤ 2 →
          (∀ s ∈ run, (pyInt s.chair).isSome = true)
          ∧ pyInt "2" = (pyInt "1").map (fun v => v + ((2 : Nat) : Int) - 1)) :=
  C10_group_invariants goodSeats 2 none [⟨"5", "1", "2", 2⟩] (by rfl)
    ⟨"5", "1", "2", 2⟩ (by decide)

end TheaterBot
